import Mathlib

/-!
Verification of the `kvs` log-structured key/value store
(`src/engines/kv.rs`, `src/thread_pool.rs`) against its natural-language
specification.

The storage engine is shallowly embedded at record granularity: a log
segment is the list of commands appended to it, and all byte positions and
lengths are computed from the length of each record's `serde_json`
encoding.  Reading a byte range out of a segment (`readAt`) succeeds
exactly when the range is the on-disk extent of one record, which is the
behaviour of a self-delimiting codec.  File-system operations that the
source `?`-propagates are modelled with `Except`; the file-deletion step
of compaction, which the spec discusses separately, additionally takes a
failure oracle (`compactFs`).
-/

namespace KvsProof

/-- A log record, mirroring `Command` in `src/engines/kv.rs` (the
`addr` field is `#[serde(skip)]`-ped and never serialized, so it is not
part of the model).  `Get` commands exist in the Rust enum but are never
written to the log; replay skips them with a catch-all. -/
inductive Command where
  | set (key value : String)
  | rm (key : String)
  | getc (key : String)
deriving DecidableEq, Repr

/-- Error cases of `KvsError` that the modelled code paths can produce. -/
inductive KvsError where
  | ioErr
  | serde
  | keyNotFound
  | unexpectedCommandType
deriving DecidableEq, Repr

instance {ε α : Type} [DecidableEq ε] [DecidableEq α] :
    DecidableEq (Except ε α) := fun a b =>
  match a, b with
  | .ok x, .ok y =>
    if h : x = y then isTrue (by rw [h]) else isFalse (by simp [h])
  | .ok _, .error _ => isFalse (by simp)
  | .error _, .ok _ => isFalse (by simp)
  | .error x, .error y =>
    if h : x = y then isTrue (by rw [h]) else isFalse (by simp [h])

/-- `CommandPos`: generation, byte offset and byte length of a serialized
command in the log, as in `src/engines/kv.rs`. -/
structure CommandPos where
  gen : Nat
  pos : Nat
  len : Nat
deriving DecidableEq, Repr

/-- Byte length of the `serde_json` encoding of a record, for keys and
values containing no JSON-escaped characters.  `Set { key: k, value: v }`
serializes as a 29-byte frame plus the key and value bytes, `Rm` as a
17-byte frame plus the key, `Get` as an 18-byte frame plus the key. -/
def recLen : Command → Nat
  | .set k v => 29 + k.length + v.length
  | .rm k => 17 + k.length
  | .getc k => 18 + k.length

theorem recLen_pos (c : Command) : 0 < recLen c := by
  cases c <;> simp [recLen]

/-- Total byte length of a segment (a list of serialized records). -/
def segByteLen (recs : List Command) : Nat :=
  (recs.map recLen).sum

theorem segByteLen_nil : segByteLen [] = 0 := rfl

theorem segByteLen_cons (c : Command) (recs : List Command) :
    segByteLen (c :: recs) = recLen c + segByteLen recs := by
  simp [segByteLen]

theorem segByteLen_append (l1 l2 : List Command) :
    segByteLen (l1 ++ l2) = segByteLen l1 + segByteLen l2 := by
  simp [segByteLen]

/-- Decode the record stored in the byte range `[pos, pos + len)` of a
segment.  The codec is self-delimiting, so a read decodes to a command
exactly when the requested range is the extent of one record; any
misaligned or wrongly-sized read fails to deserialize (the model of
`read_and` + `serde_json::from_reader`). -/
def readAt : List Command → Nat → Nat → Option Command
  | [], _, _ => none
  | c :: rest, pos, len =>
    if pos = 0 then
      if len = recLen c then some c else none
    else if recLen c ≤ pos then
      readAt rest (pos - recLen c) len
    else
      none

theorem readAt_append_of_some {l : List Command} {pos len : Nat} {c : Command}
    (h : readAt l pos len = some c) (l' : List Command) :
    readAt (l ++ l') pos len = some c := by
  induction l generalizing pos with
  | nil => simp [readAt] at h
  | cons d rest ih =>
    simp only [readAt, List.cons_append] at h ⊢
    by_cases h0 : pos = 0
    · simp only [h0, if_true] at h ⊢
      exact h
    · simp only [h0, if_false] at h ⊢
      by_cases h1 : recLen d ≤ pos
      · simp only [h1, if_true] at h ⊢
        exact ih h
      · simp only [h1, if_false] at h
        exact absurd h (by simp)

theorem readAt_concat (pre : List Command) (c : Command) (suf : List Command) :
    readAt (pre ++ c :: suf) (segByteLen pre) (recLen c) = some c := by
  induction pre with
  | nil => simp [readAt, segByteLen]
  | cons d rest ih =>
    have hd := recLen_pos d
    simp only [List.cons_append, readAt, segByteLen_cons]
    rw [if_neg (by omega), if_pos (by omega)]
    simpa [Nat.add_sub_cancel_left] using ih

theorem readAt_len_eq {l : List Command} {pos len : Nat} {c : Command}
    (h : readAt l pos len = some c) : len = recLen c := by
  induction l generalizing pos with
  | nil => simp [readAt] at h
  | cons d rest ih =>
    simp only [readAt] at h
    split at h
    · split at h
      · cases h; assumption
      · exact absurd h (by simp)
    · split at h
      · exact ih h
      · exact absurd h (by simp)

/-! ### Key order

Rust's `BTreeMap<String, _>` / `crossbeam_skiplist::SkipMap<String, _>`
order keys lexicographically.  `strLt` is that order, made executable on
the character lists underlying Lean strings so that concrete states can
be evaluated by the kernel. -/

/-- Lexicographic strict order on character lists (the order of Rust's
`Ord for String`). -/
def charsLt : List Char → List Char → Bool
  | [], [] => false
  | [], _ :: _ => true
  | _ :: _, [] => false
  | a :: as, b :: bs => a < b || (a = b && charsLt as bs)

/-- Lexicographic strict order on keys. -/
def strLt (a b : String) : Bool := charsLt a.data b.data

theorem charsLt_irrefl (l : List Char) : charsLt l l = false := by
  induction l with
  | nil => rfl
  | cons a as ih => simp [charsLt, ih]

theorem charsLt_trans {l1 l2 l3 : List Char}
    (h1 : charsLt l1 l2 = true) (h2 : charsLt l2 l3 = true) :
    charsLt l1 l3 = true := by
  induction l1 generalizing l2 l3 with
  | nil =>
    cases l2 with
    | nil => simp [charsLt] at h1
    | cons b bs =>
      cases l3 with
      | nil => simp [charsLt] at h2
      | cons c cs => simp [charsLt]
  | cons a as ih =>
    cases l2 with
    | nil => simp [charsLt] at h1
    | cons b bs =>
      cases l3 with
      | nil => simp [charsLt] at h2
      | cons c cs =>
        simp only [charsLt, Bool.or_eq_true, Bool.and_eq_true,
          decide_eq_true_eq] at h1 h2 ⊢
        rcases h1 with h1 | ⟨hab, h1⟩
        · rcases h2 with h2 | ⟨hbc, h2⟩
          · exact Or.inl (lt_trans h1 h2)
          · exact Or.inl (hbc ▸ h1)
        · rcases h2 with h2 | ⟨hbc, h2⟩
          · exact Or.inl (hab ▸ h2)
          · exact Or.inr ⟨hab.trans hbc, ih h1 h2⟩

theorem charsLt_total {l1 l2 : List Char}
    (h : charsLt l1 l2 = false) (hne : l1 ≠ l2) : charsLt l2 l1 = true := by
  induction l1 generalizing l2 with
  | nil =>
    cases l2 with
    | nil => exact absurd rfl hne
    | cons b bs => simp [charsLt] at h
  | cons a as ih =>
    cases l2 with
    | nil => simp [charsLt]
    | cons b bs =>
      simp only [charsLt, Bool.or_eq_false_iff, Bool.and_eq_false_iff,
        Bool.or_eq_true, Bool.and_eq_true, decide_eq_true_eq,
        decide_eq_false_iff_not] at h ⊢
      obtain ⟨hab, hrest⟩ := h
      by_cases heq : a = b
      · subst heq
        rcases hrest with hne' | hfalse
        · exact absurd rfl hne'
        · have : as ≠ bs := fun hh => hne (by rw [hh])
          exact Or.inr ⟨rfl, ih hfalse this⟩
      · rcases lt_trichotomy a b with hlt | hE | hgt
        · exact absurd hlt hab
        · exact absurd hE heq
        · exact Or.inl hgt

theorem strLt_irrefl (a : String) : strLt a a = false := charsLt_irrefl a.data

theorem strLt_trans {a b c : String} (h1 : strLt a b = true)
    (h2 : strLt b c = true) : strLt a c = true := charsLt_trans h1 h2

theorem strLt_total {a b : String} (h : strLt a b = false) (hne : a ≠ b) :
    strLt b a = true := by
  refine charsLt_total h fun hd => hne ?_
  cases a; cases b; exact congrArg String.mk hd

theorem strLt_ne {a b : String} (h : strLt a b = true) : a ≠ b := by
  intro hE
  rw [hE, strLt_irrefl] at h
  exact Bool.false_ne_true h

theorem strLt_asymm {a b : String} (h : strLt a b = true) :
    strLt b a = false := by
  cases hba : strLt b a with
  | false => rfl
  | true => exact absurd (strLt_trans h hba) (by simp [strLt_irrefl])

/-! ### The in-memory index

`SkipMap<String, CommandPos>` is modelled as an association list kept
strictly sorted by `strLt`, which is also the order in which the skip
map iterates during compaction. -/

/-- The in-memory index: keys to command positions, sorted by key. -/
abbrev Idx := List (String × CommandPos)

/-- `index.get(&key)` — first (and, on sorted indices, only) binding. -/
def idxGet : Idx → String → Option CommandPos
  | [], _ => none
  | (k', cp) :: rest, k => if k = k' then some cp else idxGet rest k

/-- `index.insert(key, pos)` — insert or overwrite, keeping key order. -/
def idxInsert : Idx → String → CommandPos → Idx
  | [], k, cp => [(k, cp)]
  | (k', cp') :: rest, k, cp =>
    if strLt k k' then (k, cp) :: (k', cp') :: rest
    else if k = k' then (k, cp) :: rest
    else (k', cp') :: idxInsert rest k cp

/-- `index.remove(&key)` — drop the binding for `key`. -/
def idxRemove (idx : Idx) (k : String) : Idx :=
  idx.filter (fun e => e.1 ≠ k)

/-- Strict key-sortedness of an index (the `SkipMap` shape invariant). -/
def IdxSorted (idx : Idx) : Prop :=
  List.Pairwise (fun e1 e2 => strLt e1.1 e2.1 = true) idx

instance (idx : Idx) : Decidable (IdxSorted idx) := by
  unfold IdxSorted; infer_instance

theorem idxGet_idxInsert_self (l : Idx) (k : String) (cp : CommandPos) :
    idxGet (idxInsert l k cp) k = some cp := by
  induction l with
  | nil => simp [idxInsert, idxGet]
  | cons e rest ih =>
    obtain ⟨k', cp'⟩ := e
    simp only [idxInsert]
    by_cases h1 : strLt k k' = true
    · simp [h1, idxGet]
    · by_cases h2 : k = k'
      · subst h2
        simp [strLt_irrefl, idxGet]
      · simp [h1, h2, idxGet, ih]

theorem idxGet_idxInsert_ne (l : Idx) {k k' : String} (cp : CommandPos)
    (h : k' ≠ k) : idxGet (idxInsert l k cp) k' = idxGet l k' := by
  induction l with
  | nil => simp [idxInsert, idxGet, h]
  | cons e rest ih =>
    obtain ⟨k0, cp0⟩ := e
    simp only [idxInsert]
    by_cases h1 : strLt k k0 = true
    · simp [h1, idxGet, h]
    · by_cases h2 : k = k0
      · subst h2
        simp [h1, idxGet, h]
      · simp only [h1, h2, if_false, idxGet]
        by_cases h3 : k' = k0
        · simp [h3]
        · simp [h3, ih]

theorem idxGet_idxRemove_self (l : Idx) (k : String) :
    idxGet (idxRemove l k) k = none := by
  induction l with
  | nil => rfl
  | cons e rest ih =>
    obtain ⟨k0, cp0⟩ := e
    by_cases h : k0 = k
    · simpa [idxRemove, h] using ih
    · simpa [idxRemove, h, idxGet, Ne.symm h] using ih

theorem idxGet_idxRemove_ne (l : Idx) {k k' : String} (h : k' ≠ k) :
    idxGet (idxRemove l k) k' = idxGet l k' := by
  induction l with
  | nil => rfl
  | cons e rest ih =>
    obtain ⟨k0, cp0⟩ := e
    by_cases h0 : k0 = k
    · subst h0
      simpa [idxRemove, idxGet, h] using ih
    · by_cases h1 : k' = k0
      · simp [idxRemove, h0, idxGet, h1]
      · simpa [idxRemove, h0, idxGet, h1] using ih

theorem mem_idxInsert {l : Idx} {k : String} {cp : CommandPos}
    {e : String × CommandPos} (h : e ∈ idxInsert l k cp) :
    e = (k, cp) ∨ e ∈ l := by
  induction l with
  | nil => simpa [idxInsert] using h
  | cons e0 rest ih =>
    obtain ⟨k0, cp0⟩ := e0
    simp only [idxInsert] at h
    by_cases h1 : strLt k k0 = true
    · rw [if_pos h1] at h
      rcases List.mem_cons.mp h with h | h
      · exact Or.inl h
      · exact Or.inr h
    · rw [if_neg h1] at h
      by_cases h2 : k = k0
      · rw [if_pos h2] at h
        rcases List.mem_cons.mp h with h | h
        · exact Or.inl h
        · exact Or.inr (List.mem_cons_of_mem _ h)
      · rw [if_neg h2] at h
        rcases List.mem_cons.mp h with h | h
        · exact Or.inr (by simp [h])
        · rcases ih h with h' | h'
          · exact Or.inl h'
          · exact Or.inr (List.mem_cons_of_mem _ h')

theorem idxInsert_sorted {l : Idx} (hs : IdxSorted l) (k : String)
    (cp : CommandPos) : IdxSorted (idxInsert l k cp) := by
  induction l with
  | nil => simp [idxInsert, IdxSorted]
  | cons e0 rest ih =>
    obtain ⟨k0, cp0⟩ := e0
    rw [IdxSorted, List.pairwise_cons] at hs
    obtain ⟨h0, hrest⟩ := hs
    simp only [idxInsert]
    by_cases h1 : strLt k k0 = true
    · rw [if_pos h1]
      refine List.Pairwise.cons ?_ (List.Pairwise.cons h0 hrest)
      intro e he
      rcases List.mem_cons.mp he with h | h
      · simp [h, h1]
      · exact strLt_trans h1 (h0 e h)
    · by_cases h2 : k = k0
      · rw [if_neg h1, if_pos h2]
        exact List.Pairwise.cons (by simpa [h2] using h0) hrest
      · rw [if_neg h1, if_neg h2]
        refine List.Pairwise.cons ?_ (ih hrest)
        intro e he
        rcases mem_idxInsert he with h | h
        · have := strLt_total (by simpa using h1) h2
          simp [h, this]
        · exact h0 e h

theorem idxRemove_sorted {l : Idx} (hs : IdxSorted l) (k : String) :
    IdxSorted (idxRemove l k) :=
  List.Pairwise.sublist (List.filter_sublist l) hs

theorem idxGet_mem {l : Idx} {k : String} {cp : CommandPos}
    (h : idxGet l k = some cp) : (k, cp) ∈ l := by
  induction l with
  | nil => simp [idxGet] at h
  | cons e rest ih =>
    obtain ⟨k0, cp0⟩ := e
    simp only [idxGet] at h
    by_cases h0 : k = k0
    · simp only [h0, if_true] at h
      cases h
      simp [h0]
    · simp only [h0, if_false] at h
      exact List.mem_cons_of_mem _ (ih h)

theorem idxGet_eq_none_iff (l : Idx) (k : String) :
    idxGet l k = none ↔ k ∉ l.map Prod.fst := by
  induction l with
  | nil => simp [idxGet]
  | cons e rest ih =>
    obtain ⟨k0, cp0⟩ := e
    by_cases h0 : k = k0
    · simp [idxGet, h0]
    · simp [idxGet, h0, ih]

theorem idxInsert_append_of_gt {l : Idx} (k : String) (cp : CommandPos)
    (h : ∀ e ∈ l, strLt e.1 k = true) :
    idxInsert l k cp = l ++ [(k, cp)] := by
  induction l with
  | nil => rfl
  | cons e0 rest ih =>
    obtain ⟨k0, cp0⟩ := e0
    have h0 : strLt k0 k = true := h (k0, cp0) (by simp)
    simp only [idxInsert]
    rw [if_neg (by simp [strLt_asymm h0]), if_neg (Ne.symm (strLt_ne h0))]
    rw [ih fun e he => h e (List.mem_cons_of_mem _ he)]
    simp

/-- Inserting a new position for a key that sits right after an
already-rewritten prefix `done` (whose keys are all below `k`) replaces
the binding in place.  This is the shape of the index during the
compaction loop. -/
theorem idxInsert_replace_at {done : Idx} {k : String}
    (cp newcp : CommandPos) (rest : Idx)
    (h : ∀ e ∈ done, strLt e.1 k = true) :
    idxInsert (done ++ (k, cp) :: rest) k newcp =
      done ++ (k, newcp) :: rest := by
  induction done with
  | nil => simp [idxInsert, strLt_irrefl]
  | cons e0 dtail ih =>
    obtain ⟨k0, cp0⟩ := e0
    have h0 : strLt k0 k = true := h (k0, cp0) (by simp)
    simp only [List.cons_append, idxInsert]
    rw [if_neg (by simp [strLt_asymm h0]), if_neg (Ne.symm (strLt_ne h0))]
    exact congrArg (fun t => (k0, cp0) :: t)
      (ih fun e he => h e (List.mem_cons_of_mem _ he))

/-! ### The directory of segments

A directory is an association list from generation number to segment
contents, kept sorted by generation — the shape that
`sorted_gen_list` recovers from the file names. -/

/-- Directory contents: generation number to segment records. -/
abbrev Segs := List (Nat × List Command)

/-- Contents of `<gen>.log`, when that file exists. -/
def segLookup : Segs → Nat → Option (List Command)
  | [], _ => none
  | (g, recs) :: rest, gen => if gen = g then some recs else segLookup rest gen

/-- Append one serialized record to segment `gen` (a buffered write
followed by a flush); every other file is untouched. -/
def segsAppendRec : Segs → Nat → Command → Segs
  | [], _, _ => []
  | (g, recs) :: rest, gen, c =>
    if g = gen then (g, recs ++ [c]) :: segsAppendRec rest gen c
    else (g, recs) :: segsAppendRec rest gen c

/-- `new_log_file`: open `<gen>.log` with `create(true).append(true)`.
An existing file keeps its contents; a fresh generation starts empty. -/
def newLogFile : Segs → Nat → Segs
  | [], gen => [(gen, [])]
  | (g, recs) :: rest, gen =>
    if gen < g then (gen, []) :: (g, recs) :: rest
    else if gen = g then (g, recs) :: rest
    else (g, recs) :: newLogFile rest gen

/-- Overwrite segment `gen`'s contents (the compaction sink's flush). -/
def segsSet : Segs → Nat → List Command → Segs
  | [], _, _ => []
  | (g, r0) :: rest, gen, recs =>
    if g = gen then (g, recs) :: segsSet rest gen recs
    else (g, r0) :: segsSet rest gen recs

/-- `fs::remove_file(log_path(dir, gen))`. -/
def segsDelete (segs : Segs) (gen : Nat) : Segs :=
  segs.filter fun e => e.1 ≠ gen

/-- The directory listing is strictly sorted by generation. -/
def SegsSorted (segs : Segs) : Prop :=
  List.Pairwise (· < ·) (segs.map Prod.fst)

instance (segs : Segs) : Decidable (SegsSorted segs) := by
  unfold SegsSorted; infer_instance

theorem segLookup_segsAppendRec_self (segs : Segs) (gen : Nat) (c : Command) :
    segLookup (segsAppendRec segs gen c) gen =
      (segLookup segs gen).map (fun recs => recs ++ [c]) := by
  induction segs with
  | nil => rfl
  | cons e rest ih =>
    obtain ⟨g, recs⟩ := e
    by_cases h : g = gen
    · subst h
      simp [segsAppendRec, segLookup]
    · simp [segsAppendRec, segLookup, h, Ne.symm h, ih]

theorem segLookup_segsAppendRec_ne (segs : Segs) {gen g' : Nat} (c : Command)
    (h : g' ≠ gen) :
    segLookup (segsAppendRec segs gen c) g' = segLookup segs g' := by
  induction segs with
  | nil => rfl
  | cons e rest ih =>
    obtain ⟨g, recs⟩ := e
    by_cases h0 : g = gen
    · subst h0
      simp [segsAppendRec, segLookup, h, ih]
    · by_cases h1 : g' = g
      · simp [segsAppendRec, segLookup, h0, h1]
      · simp [segsAppendRec, segLookup, h0, h1, ih]

theorem segsAppendRec_map_fst (segs : Segs) (gen : Nat) (c : Command) :
    (segsAppendRec segs gen c).map Prod.fst = segs.map Prod.fst := by
  induction segs with
  | nil => rfl
  | cons e rest ih =>
    obtain ⟨g, recs⟩ := e
    by_cases h : g = gen <;> simp [segsAppendRec, h, ih]

theorem segsSet_map_fst (segs : Segs) (gen : Nat) (recs : List Command) :
    (segsSet segs gen recs).map Prod.fst = segs.map Prod.fst := by
  induction segs with
  | nil => rfl
  | cons e rest ih =>
    obtain ⟨g, r0⟩ := e
    by_cases h : g = gen <;> simp [segsSet, h, ih]

theorem segLookup_segsSet_self (segs : Segs) (gen : Nat) (recs : List Command)
    (h : (segLookup segs gen).isSome = true) :
    segLookup (segsSet segs gen recs) gen = some recs := by
  induction segs with
  | nil => simp [segLookup] at h
  | cons e rest ih =>
    obtain ⟨g, r0⟩ := e
    by_cases h0 : g = gen
    · subst h0
      simp [segsSet, segLookup]
    · simp only [segLookup, if_neg (Ne.symm h0)] at h
      simp [segsSet, segLookup, h0, Ne.symm h0, ih h]

theorem segLookup_segsSet_ne (segs : Segs) {gen g' : Nat} (recs : List Command)
    (h : g' ≠ gen) :
    segLookup (segsSet segs gen recs) g' = segLookup segs g' := by
  induction segs with
  | nil => rfl
  | cons e rest ih =>
    obtain ⟨g, r0⟩ := e
    by_cases h0 : g = gen
    · subst h0
      simp [segsSet, segLookup, h, ih]
    · by_cases h1 : g' = g
      · simp [segsSet, segLookup, h0, h1]
      · simp [segsSet, segLookup, h0, h1, ih]

theorem newLogFile_append_of_gt {segs : Segs} {gen : Nat}
    (h : ∀ e ∈ segs, e.1 < gen) :
    newLogFile segs gen = segs ++ [(gen, [])] := by
  induction segs with
  | nil => rfl
  | cons e rest ih =>
    obtain ⟨g, recs⟩ := e
    have h0 : g < gen := h (g, recs) (by simp)
    simp only [newLogFile]
    rw [if_neg (by omega), if_neg (by omega)]
    rw [ih fun e he => h e (List.mem_cons_of_mem _ he)]
    simp

theorem segLookup_append_of_some {segs : Segs} {gen : Nat}
    {recs : List Command} (h : segLookup segs gen = some recs)
    (segs2 : Segs) : segLookup (segs ++ segs2) gen = some recs := by
  induction segs with
  | nil => simp [segLookup] at h
  | cons e rest ih =>
    obtain ⟨g, r0⟩ := e
    by_cases h0 : gen = g
    · simp only [segLookup, if_pos h0] at h
      simp [segLookup, h0, h]
    · simp only [segLookup, if_neg h0] at h
      simpa [segLookup, h0] using ih h

theorem segLookup_append_of_none {segs : Segs} {gen : Nat}
    (h : segLookup segs gen = none) (segs2 : Segs) :
    segLookup (segs ++ segs2) gen = segLookup segs2 gen := by
  induction segs with
  | nil => simp [segLookup]
  | cons e rest ih =>
    obtain ⟨g, r0⟩ := e
    by_cases h0 : gen = g
    · simp [segLookup, h0] at h
    · simp only [segLookup, if_neg h0] at h
      simpa [segLookup, h0] using ih h

theorem segLookup_isSome_of_mem {segs : Segs} {gen : Nat}
    (h : gen ∈ segs.map Prod.fst) : (segLookup segs gen).isSome = true := by
  induction segs with
  | nil => simp at h
  | cons e rest ih =>
    obtain ⟨g, r0⟩ := e
    by_cases h0 : gen = g
    · simp [segLookup, h0]
    · simp only [List.map_cons, List.mem_cons] at h
      rcases h with h | h
      · exact absurd h h0
      · simpa [segLookup, h0] using ih h

theorem segLookup_eq_none_iff (segs : Segs) (gen : Nat) :
    segLookup segs gen = none ↔ gen ∉ segs.map Prod.fst := by
  induction segs with
  | nil => simp [segLookup]
  | cons e rest ih =>
    obtain ⟨g, r0⟩ := e
    by_cases h0 : gen = g
    · simp [segLookup, h0]
    · simp [segLookup, h0, ih]

/-! ### Sorting the generation list (`sorted_gen_list`) -/

/-- Insertion into an ascending list of generation numbers. -/
def insertGen (g : Nat) : List Nat → List Nat
  | [] => [g]
  | h :: t => if g ≤ h then g :: h :: t else h :: insertGen g t

/-- `sorted_gen_list`: the generation numbers in ascending order. -/
def sortGens : List Nat → List Nat
  | [] => []
  | h :: t => insertGen h (sortGens t)

theorem mem_insertGen {a g : Nat} {l : List Nat} :
    a ∈ insertGen g l ↔ a = g ∨ a ∈ l := by
  induction l with
  | nil => simp [insertGen]
  | cons h t ih =>
    by_cases h0 : g ≤ h
    · simp [insertGen, h0]
    · simp only [insertGen, if_neg h0, List.mem_cons, ih]
      tauto

theorem mem_sortGens {a : Nat} {l : List Nat} :
    a ∈ sortGens l ↔ a ∈ l := by
  induction l with
  | nil => simp [sortGens]
  | cons h t ih => simp [sortGens, mem_insertGen, ih]

theorem insertGen_sorted {l : List Nat} (hs : List.Pairwise (· ≤ ·) l)
    (g : Nat) : List.Pairwise (· ≤ ·) (insertGen g l) := by
  induction l with
  | nil => simp [insertGen]
  | cons h t ih =>
    rw [List.pairwise_cons] at hs
    obtain ⟨h0, ht⟩ := hs
    by_cases hg : g ≤ h
    · rw [insertGen, if_pos hg]
      refine List.Pairwise.cons ?_ (List.Pairwise.cons h0 ht)
      intro b hb
      rcases List.mem_cons.mp hb with hb | hb
      · omega
      · have := h0 b hb; omega
    · rw [insertGen, if_neg hg]
      refine List.Pairwise.cons ?_ (ih ht)
      intro b hb
      rcases mem_insertGen.mp hb with hb | hb
      · omega
      · exact h0 b hb

theorem sortGens_sorted (l : List Nat) :
    List.Pairwise (· ≤ ·) (sortGens l) := by
  induction l with
  | nil => simp [sortGens]
  | cons h t ih => exact insertGen_sorted ih h

theorem sortGens_eq_self {l : List Nat} (hs : List.Pairwise (· ≤ ·) l) :
    sortGens l = l := by
  induction l with
  | nil => rfl
  | cons h t ih =>
    rw [List.pairwise_cons] at hs
    obtain ⟨h0, ht⟩ := hs
    rw [sortGens, ih ht]
    cases t with
    | nil => rfl
    | cons h2 t2 => rw [insertGen, if_pos (h0 h2 (by simp))]

/-! ### Replay (`load`) and `KvStore::open` -/

/-- `load`: stream one segment's records into the index, returning the
index and the accumulated compactable-byte count.  `pos` is the stream
byte offset before the current record and `pos + recLen c` is what
`stream.byte_offset()` reports after it.  A `Set` charges the length of
the entry it overwrites; a `Rm` charges the length of the entry it
deletes and, unconditionally, its own length; other commands are
skipped by the catch-all arm. -/
def loadRecs (gen : Nat) : List Command → Nat → Idx → Nat → Idx × Nat
  | [], _, idx, unc => (idx, unc)
  | c :: rest, pos, idx, unc =>
    let newPos := pos + recLen c
    match c with
    | .set k _ =>
      let unc' := unc +
        (match idxGet idx k with | some old => old.len | none => 0)
      loadRecs gen rest newPos (idxInsert idx k ⟨gen, pos, newPos - pos⟩) unc'
    | .rm k =>
      let unc' := unc +
        (match idxGet idx k with | some old => old.len | none => 0) +
        (newPos - pos)
      loadRecs gen rest newPos (idxRemove idx k) unc'
    | .getc _ => loadRecs gen rest newPos idx unc

/-- Replay a run of segments, in the order given, on top of an
accumulated index and uncompacted count. -/
def replayFrom (acc : Idx × Nat) (l : Segs) : Idx × Nat :=
  l.foldl (fun a e => loadRecs e.1 e.2 0 a.1 a.2) acc

/-- Replay a directory listing from scratch. -/
def replayList (l : Segs) : Idx × Nat := replayFrom ([], 0) l

/-- The modelled state of an open `KvStore`/`KvWriter`: the directory
contents, the writer's current generation, the readers' safe point, the
in-memory index and the uncompacted-bytes counter.  Per-thread reader
handle caches affect no observable behaviour and are not modelled. -/
structure KvState where
  segs : Segs
  currentGen : Nat
  safePoint : Nat
  index : Idx
  uncompacted : Nat
deriving DecidableEq, Repr

/-- `KvStore::open`: list `<gen>.log` files, sort the generations,
replay each in ascending order, open a fresh current segment at
`gen_list.last().unwrap_or(&0) + 1`, and set the safe point to
`gen_list.first().unwrap_or(&current_gen)`. -/
def openFromDir (dir : Segs) : KvState :=
  let genList := sortGens (dir.map Prod.fst)
  let sortedDir := genList.map fun g => (g, (segLookup dir g).getD [])
  let loaded := replayList sortedDir
  let currentGen := genList.getLast?.getD 0 + 1
  { segs := sortedDir ++ [(currentGen, [])]
    currentGen := currentGen
    safePoint := genList.head?.getD currentGen
    index := loaded.1
    uncompacted := loaded.2 }

/-! ### The write path, the read path, and compaction -/

/-- `COMPACTION_THRESHOLD` from `src/engines/kv.rs`. -/
def COMPACTION_THRESHOLD : Nat := 1024 * 1024

/-- Look up a `CommandPos` and decode the record it points at, as
`KvReader::read_and` does: open (or reuse) the file for `cp.gen`, seek
to `cp.pos`, take `cp.len` bytes, decode one value. -/
def readEntry (segs : Segs) (cp : CommandPos) : Option Command :=
  match segLookup segs cp.gen with
  | some recs => readAt recs cp.pos cp.len
  | none => none

/-- The compaction copy loop (`for entry in self.index.iter()` in
`KvWriter::compact`): for each live entry, in key order, stream its
bytes into the compaction sink, then repoint the entry at
`(compaction_gen, new_pos..new_pos + len)`.  The loop iterates over the
entries as they stood when it started (each key is overwritten only at
its own visit), threading the evolving index, the sink contents, and
the sink write position.  A read that fails is `?`-propagated. -/
def compactLoop (segs : Segs) (cgen : Nat) :
    List (String × CommandPos) → Idx → List Command → Nat →
    Except KvsError (Idx × List Command)
  | [], idx, sink, _ => .ok (idx, sink)
  | (k, cp) :: rest, idx, sink, newPos =>
    match readEntry segs cp with
    | some c =>
      compactLoop segs cgen rest
        (idxInsert idx k ⟨cgen, newPos, recLen c⟩)
        (sink ++ [c]) (newPos + recLen c)
    | none => .error .ioErr

/-- The stale-file deletion loop ending `KvWriter::compact`.  `failDel`
says which `fs::remove_file` calls fail; the source `?`-propagates the
first failure. -/
def deleteStales (failDel : Nat → Bool) :
    Segs → List Nat → Except KvsError Segs
  | segs, [] => .ok segs
  | segs, g :: gs =>
    if failDel g then .error .ioErr
    else deleteStales failDel (segsDelete segs g) gs

/-- `KvWriter::compact`, parameterised by an oracle `failDel` choosing
which stale-file deletions fail (all other file operations are modelled
as succeeding): bump `current_gen` by two, open the new current segment
and the compaction sink, copy every live entry in key order, flush,
advance the safe point to `compaction_gen`, delete the segments older
than `compaction_gen`, and reset `uncompacted`.  The `Except` model
returns no partial state on error; no claim examines the post-state of
a failed compaction. -/
def compactFs (failDel : Nat → Bool) (s : KvState) :
    Except KvsError KvState :=
  let cgen := s.currentGen + 1
  let newCur := s.currentGen + 2
  let segs1 := newLogFile s.segs newCur
  let segs2 := newLogFile segs1 cgen
  match compactLoop segs2 cgen s.index s.index [] 0 with
  | .error e => .error e
  | .ok (idx', sink) =>
    let segs3 := segsSet segs2 cgen sink
    let stales := (sortGens (segs3.map Prod.fst)).filter (fun g => g < cgen)
    match deleteStales failDel segs3 stales with
    | .error e => .error e
    | .ok segs4 =>
      .ok { segs := segs4, currentGen := newCur, safePoint := cgen,
            index := idx', uncompacted := 0 }

/-- Compaction as triggered from `set`: all deletions succeed. -/
def compact (s : KvState) : Except KvsError KvState :=
  compactFs (fun _ => false) s

/-- The record-appending part of `KvWriter::set`: append the encoded
`Set` record at the writer's position (the current segment's byte
length) and flush; charge the overwritten entry's length (if any) to
`uncompacted`; point the index at `(current_gen, pos..writer.pos)`. -/
def setCore (s : KvState) (k v : String) : KvState :=
  { s with
    segs := segsAppendRec s.segs s.currentGen (Command.set k v),
    index := idxInsert s.index k
      ⟨s.currentGen,
       segByteLen ((segLookup s.segs s.currentGen).getD []),
       recLen (Command.set k v)⟩,
    uncompacted := s.uncompacted +
      (match idxGet s.index k with | some old => old.len | none => 0) }

/-- `KvWriter::set`: the write, then compaction when the updated
`uncompacted` exceeds the threshold. -/
def doSet (s : KvState) (k v : String) : Except KvsError KvState :=
  let s1 := setCore s k v
  if s1.uncompacted > COMPACTION_THRESHOLD then compact s1 else .ok s1

/-- The effect of a successful `KvWriter::remove` of a key whose entry
is `old`: append the `Rm` tombstone and flush, drop the index entry,
and charge the dropped entry's length (the tombstone's own length is
not charged). -/
def removeCore (s : KvState) (k : String) (old : CommandPos) : KvState :=
  { s with
    segs := segsAppendRec s.segs s.currentGen (Command.rm k),
    index := idxRemove s.index k,
    uncompacted := s.uncompacted + old.len }

/-- `KvWriter::remove`: a key absent from the index fails with
`KeyNotFound` before anything is written. -/
def doRemove (s : KvState) (k : String) : Except KvsError KvState :=
  match idxGet s.index k with
  | some old => .ok (removeCore s k old)
  | none => .error .keyNotFound

/-- `KvStore::get`: an index miss returns `None`; a hit decodes the
record at the entry's extent and returns its value if it is a `Set`,
failing with `UnexpectedCommandType` otherwise.  (`close_stale_readers`
only trims the calling thread's reader cache and has no observable
effect.)  A failed decode surfaces as a deserialization error. -/
def get (s : KvState) (k : String) : Except KvsError (Option String) :=
  match idxGet s.index k with
  | none => .ok none
  | some cp =>
    match readEntry s.segs cp with
    | some (Command.set _ v) => .ok (some v)
    | some _ => .error .unexpectedCommandType
    | none => .error .serde

/-! ### Operation sequences -/

/-- A client write operation.  (`get` mutates nothing observable, so
operation sequences are write sequences.) -/
inductive Op where
  | set (key value : String)
  | remove (key : String)
deriving DecidableEq, Repr

/-- The key an operation touches. -/
def opKey : Op → String
  | .set k _ => k
  | .remove k => k

/-- Run one operation against the store.  A failed `remove` leaves the
store untouched, as the source returns `Err(KeyNotFound)` before
writing anything; a failed `set` does not occur on well-formed states
(its only failure modes are file-system errors, which this model
treats as succeeding). -/
def applyOp (s : KvState) : Op → KvState
  | .set k v =>
    match doSet s k v with
    | .ok s' => s'
    | .error _ => s
  | .remove k =>
    match doRemove s k with
    | .ok s' => s'
    | .error _ => s

/-- Run a sequence of operations. -/
def runOps (s : KvState) (ops : List Op) : KvState := ops.foldl applyOp s

/-- One step of the last-writer-wins fold for key `k`. -/
def specStep (k : String) (acc : Option String) : Op → Option String
  | Op.set k' v => if k' = k then some v else acc
  | Op.remove k' => if k' = k then none else acc

/-- Last-writer-wins folding of a write sequence over one key,
starting from the value `a`. -/
def specFrom (a : Option String) (ops : List Op) (k : String) :
    Option String :=
  ops.foldl (specStep k) a

/-- Specification-side account of the store contents after a sequence
of operations: the last value set for each key not subsequently
removed (`None` for removed or never-set keys).  This follows the
spec's words, for comparison with the engine. -/
def specLastWrites (ops : List Op) (k : String) : Option String :=
  specFrom none ops k

/-! ### Well-formedness -/

/-- An index entry points at a live `Set` record for its own key. -/
def entryOk (segs : Segs) (k : String) (cp : CommandPos) : Bool :=
  match readEntry segs cp with
  | some (Command.set k' _) => k' = k
  | _ => false

/-- Well-formedness of a store state: the directory listing is sorted
with the current segment present and newest, the index is key-sorted,
every index entry points at a `Set` record for its key, and replaying
the directory rebuilds exactly the in-memory index.  Every state
reachable from `open` satisfies this. -/
def WF (s : KvState) : Prop :=
  SegsSorted s.segs ∧
  (segLookup s.segs s.currentGen).isSome = true ∧
  (∀ e ∈ s.segs, e.1 ≤ s.currentGen) ∧
  IdxSorted s.index ∧
  (∀ e ∈ s.index, entryOk s.segs e.1 e.2 = true) ∧
  (replayList s.segs).1 = s.index

instance (s : KvState) : Decidable (WF s) := by
  unfold WF; infer_instance

/-! ### Replay lemmas -/

theorem loadRecs_cons_set (gen : Nat) (k v : String) (l : List Command)
    (pos : Nat) (idx : Idx) (unc : Nat) :
    loadRecs gen (Command.set k v :: l) pos idx unc =
      loadRecs gen l (pos + recLen (Command.set k v))
        (idxInsert idx k ⟨gen, pos, recLen (Command.set k v)⟩)
        (unc + (match idxGet idx k with | some old => old.len | none => 0)) := by
  simp [loadRecs]

theorem loadRecs_cons_rm (gen : Nat) (k : String) (l : List Command)
    (pos : Nat) (idx : Idx) (unc : Nat) :
    loadRecs gen (Command.rm k :: l) pos idx unc =
      loadRecs gen l (pos + recLen (Command.rm k)) (idxRemove idx k)
        (unc + (match idxGet idx k with | some old => old.len | none => 0) +
          recLen (Command.rm k)) := by
  simp [loadRecs]

theorem loadRecs_cons_getc (gen : Nat) (k : String) (l : List Command)
    (pos : Nat) (idx : Idx) (unc : Nat) :
    loadRecs gen (Command.getc k :: l) pos idx unc =
      loadRecs gen l (pos + recLen (Command.getc k)) idx unc := by
  simp [loadRecs]

theorem loadRecs_append (gen : Nat) (l1 l2 : List Command) (pos : Nat)
    (idx : Idx) (unc : Nat) :
    loadRecs gen (l1 ++ l2) pos idx unc =
      loadRecs gen l2 (pos + segByteLen l1)
        (loadRecs gen l1 pos idx unc).1 (loadRecs gen l1 pos idx unc).2 := by
  induction l1 generalizing pos idx unc with
  | nil => simp [loadRecs, segByteLen]
  | cons c rest ih =>
    cases c with
    | set k v =>
      rw [List.cons_append, loadRecs_cons_set, loadRecs_cons_set, ih,
        segByteLen_cons, Nat.add_assoc]
    | rm k =>
      rw [List.cons_append, loadRecs_cons_rm, loadRecs_cons_rm, ih,
        segByteLen_cons, Nat.add_assoc]
    | getc k =>
      rw [List.cons_append, loadRecs_cons_getc, loadRecs_cons_getc, ih,
        segByteLen_cons, Nat.add_assoc]

theorem replayFrom_append (acc : Idx × Nat) (l1 l2 : Segs) :
    replayFrom acc (l1 ++ l2) = replayFrom (replayFrom acc l1) l2 := by
  simp [replayFrom, List.foldl_append]

theorem replayFrom_cons (acc : Idx × Nat) (e : Nat × List Command) (l : Segs) :
    replayFrom acc (e :: l) = replayFrom (loadRecs e.1 e.2 0 acc.1 acc.2) l :=
  rfl

theorem replayFrom_nil (acc : Idx × Nat) : replayFrom acc [] = acc := rfl

/-! ### Decomposing a well-formed directory -/

theorem segsAppendRec_append (l1 l2 : Segs) (gen : Nat) (c : Command) :
    segsAppendRec (l1 ++ l2) gen c =
      segsAppendRec l1 gen c ++ segsAppendRec l2 gen c := by
  induction l1 with
  | nil => rfl
  | cons e rest ih =>
    obtain ⟨g, recs⟩ := e
    by_cases h : g = gen <;> simp [segsAppendRec, h, ih]

theorem segsAppendRec_eq_of_not_mem {segs : Segs} {gen : Nat} (c : Command)
    (h : gen ∉ segs.map Prod.fst) : segsAppendRec segs gen c = segs := by
  induction segs with
  | nil => rfl
  | cons e rest ih =>
    obtain ⟨g, recs⟩ := e
    simp only [List.map_cons, List.mem_cons] at h
    push_neg at h
    simp [segsAppendRec, Ne.symm h.1, ih h.2]

theorem segsSet_append (l1 l2 : Segs) (gen : Nat) (recs : List Command) :
    segsSet (l1 ++ l2) gen recs = segsSet l1 gen recs ++ segsSet l2 gen recs := by
  induction l1 with
  | nil => rfl
  | cons e rest ih =>
    obtain ⟨g, r0⟩ := e
    by_cases h : g = gen <;> simp [segsSet, h, ih]

theorem segsSet_eq_of_not_mem {segs : Segs} {gen : Nat} (recs : List Command)
    (h : gen ∉ segs.map Prod.fst) : segsSet segs gen recs = segs := by
  induction segs with
  | nil => rfl
  | cons e rest ih =>
    obtain ⟨g, r0⟩ := e
    simp only [List.map_cons, List.mem_cons] at h
    push_neg at h
    simp [segsSet, Ne.symm h.1, ih h.2]

theorem segsDelete_append (l1 l2 : Segs) (gen : Nat) :
    segsDelete (l1 ++ l2) gen = segsDelete l1 gen ++ segsDelete l2 gen := by
  simp [segsDelete, List.filter_append]

theorem segsDelete_eq_of_not_mem {segs : Segs} {gen : Nat}
    (h : gen ∉ segs.map Prod.fst) : segsDelete segs gen = segs := by
  unfold segsDelete
  rw [List.filter_eq_self]
  intro e he
  have hne : e.1 ≠ gen := fun hE => h (List.mem_map.mpr ⟨e, he, hE⟩)
  simpa using hne

/-- In a sorted directory whose maximal generation is `g` and whose
listing contains `g`, the `g` segment is the last entry. -/
theorem segs_last_of_max {segs : Segs} (hs : SegsSorted segs) {g : Nat}
    (hmem : (segLookup segs g).isSome = true)
    (hmax : ∀ e ∈ segs, e.1 ≤ g) :
    ∃ pre cur, segs = pre ++ [(g, cur)] ∧ (∀ e ∈ pre, e.1 < g) := by
  induction segs with
  | nil => simp [segLookup] at hmem
  | cons e rest ih =>
    obtain ⟨g0, r0⟩ := e
    by_cases h0 : g = g0
    · subst h0
      cases rest with
      | nil => exact ⟨[], r0, rfl, by simp⟩
      | cons e2 rest2 =>
        obtain ⟨g2, r2⟩ := e2
        rw [SegsSorted, List.map_cons, List.pairwise_cons] at hs
        have hlt : g < g2 := hs.1 g2 (by simp)
        have hle : g2 ≤ g := hmax (g2, r2) (by simp)
        omega
    · rw [SegsSorted, List.map_cons, List.pairwise_cons] at hs
      simp only [segLookup, if_neg h0] at hmem
      obtain ⟨pre, cur, heq, hpre⟩ :=
        ih hs.2 hmem (fun e he => hmax e (List.mem_cons_of_mem _ he))
      refine ⟨(g0, r0) :: pre, cur, by rw [heq, List.cons_append], ?_⟩
      intro e he
      rcases List.mem_cons.mp he with he | he
      · have : g0 ≤ g := hmax (g0, r0) (by simp)
        simp [he]
        omega
      · exact hpre e he

/-- Unpacked form of the current-segment facts in a well-formed state. -/
theorem WF_current_split {s : KvState} (hwf : WF s) :
    ∃ pre cur, s.segs = pre ++ [(s.currentGen, cur)] ∧
      (∀ e ∈ pre, e.1 < s.currentGen) ∧
      segLookup s.segs s.currentGen = some cur := by
  obtain ⟨h1, h2, h3, _, _, _⟩ := hwf
  obtain ⟨pre, cur, heq, hpre⟩ := segs_last_of_max h1 h2 h3
  refine ⟨pre, cur, heq, hpre, ?_⟩
  rw [heq]
  have hnone : segLookup pre s.currentGen = none := by
    rw [segLookup_eq_none_iff]
    intro hmem
    simp only [List.mem_map] at hmem
    obtain ⟨e, he, hfst⟩ := hmem
    have := hpre e he
    omega
  rw [segLookup_append_of_none hnone]
  simp [segLookup]

/-! ### Reading through appended records -/

theorem entryOk_isSome {segs : Segs} {k : String} {cp : CommandPos}
    (h : entryOk segs k cp = true) :
    ∃ v, readEntry segs cp = some (Command.set k v) := by
  unfold entryOk at h
  cases hre : readEntry segs cp with
  | none => rw [hre] at h; simp at h
  | some c =>
    rw [hre] at h
    cases c with
    | set k' v =>
      simp only [decide_eq_true_eq] at h
      subst h
      exact ⟨v, rfl⟩
    | rm k' => simp at h
    | getc k' => simp at h

theorem readEntry_segsAppendRec {segs : Segs} {cp : CommandPos} {c0 : Command}
    (gen : Nat) (c : Command) (h : readEntry segs cp = some c0) :
    readEntry (segsAppendRec segs gen c) cp = some c0 := by
  unfold readEntry at h ⊢
  by_cases hg : cp.gen = gen
  · rw [hg] at h ⊢
    rw [segLookup_segsAppendRec_self]
    cases hl : segLookup segs gen with
    | none => rw [hl] at h; simp at h
    | some recs =>
      rw [hl] at h
      simpa using readAt_append_of_some h [c]
  · rw [segLookup_segsAppendRec_ne segs c hg]
    exact h

theorem entryOk_segsAppendRec {segs : Segs} {k : String} {cp : CommandPos}
    (gen : Nat) (c : Command) (h : entryOk segs k cp = true) :
    entryOk (segsAppendRec segs gen c) k cp = true := by
  obtain ⟨v, hre⟩ := entryOk_isSome h
  unfold entryOk
  rw [readEntry_segsAppendRec gen c hre]
  simp

theorem get_eq_of_readEntry {s : KvState} {k v : String} {cp : CommandPos}
    (hidx : idxGet s.index k = some cp)
    (hre : readEntry s.segs cp = some (Command.set k v)) :
    get s k = .ok (some v) := by
  simp [get, hidx, hre]

theorem get_eq_none_of_miss {s : KvState} {k : String}
    (hidx : idxGet s.index k = none) : get s k = .ok none := by
  simp [get, hidx]

theorem loadRecs_fst_unc_indep (gen : Nat) (l : List Command) (pos : Nat)
    (idx : Idx) (unc unc' : Nat) :
    (loadRecs gen l pos idx unc).1 = (loadRecs gen l pos idx unc').1 := by
  induction l generalizing pos idx unc unc' with
  | nil => rfl
  | cons c rest ih =>
    cases c with
    | set k v => rw [loadRecs_cons_set, loadRecs_cons_set]; exact ih ..
    | rm k => rw [loadRecs_cons_rm, loadRecs_cons_rm]; exact ih ..
    | getc k => rw [loadRecs_cons_getc, loadRecs_cons_getc]; exact ih ..

/-- Appending a record to the current segment of a well-formed state:
the concrete shape of the new directory and its replay. -/
theorem appendCurrent_split {s : KvState} (hwf : WF s) (c : Command) :
    ∃ pre cur, s.segs = pre ++ [(s.currentGen, cur)] ∧
      segLookup s.segs s.currentGen = some cur ∧
      segsAppendRec s.segs s.currentGen c =
        pre ++ [(s.currentGen, cur ++ [c])] ∧
      (replayList (segsAppendRec s.segs s.currentGen c)).1 =
        (loadRecs s.currentGen [c] (segByteLen cur) s.index 0).1 := by
  obtain ⟨pre, cur, heq, hpre, hlook⟩ := WF_current_split hwf
  have hnotmem : s.currentGen ∉ pre.map Prod.fst := by
    intro hmem
    obtain ⟨e, he, hf⟩ := List.mem_map.mp hmem
    have := hpre e he
    omega
  have happ : segsAppendRec s.segs s.currentGen c =
      pre ++ [(s.currentGen, cur ++ [c])] := by
    rw [heq, segsAppendRec_append, segsAppendRec_eq_of_not_mem c hnotmem]
    simp [segsAppendRec]
  refine ⟨pre, cur, heq, hlook, happ, ?_⟩
  have h6 := hwf.2.2.2.2.2
  rw [heq] at h6
  rw [happ]
  unfold replayList at h6 ⊢
  rw [replayFrom_append] at h6 ⊢
  set A := replayFrom ([], 0) pre with hA
  rw [replayFrom_cons, replayFrom_nil] at h6 ⊢
  simp only at h6 ⊢
  rw [loadRecs_append]
  simp only [Nat.zero_add]
  set B := loadRecs s.currentGen cur 0 A.1 A.2 with hB
  rw [show B.1 = s.index from h6]
  exact loadRecs_fst_unc_indep ..

/-- The directory-listing facts of a well-formed state survive an
append to the current segment. -/
theorem segsAppendRec_dir_facts {s : KvState} (hwf : WF s) (c : Command) :
    SegsSorted (segsAppendRec s.segs s.currentGen c) ∧
    (segLookup (segsAppendRec s.segs s.currentGen c) s.currentGen).isSome
      = true ∧
    (∀ e ∈ segsAppendRec s.segs s.currentGen c, e.1 ≤ s.currentGen) := by
  obtain ⟨h1, h2, h3, _, _, _⟩ := hwf
  refine ⟨?_, ?_, ?_⟩
  · rw [SegsSorted, segsAppendRec_map_fst]
    exact h1
  · rw [segLookup_segsAppendRec_self]
    cases hl : segLookup s.segs s.currentGen with
    | none => rw [hl] at h2; simp at h2
    | some recs => simp
  · intro e he
    have hmem : e.1 ∈ (segsAppendRec s.segs s.currentGen c).map Prod.fst :=
      List.mem_map.mpr ⟨e, he, rfl⟩
    rw [segsAppendRec_map_fst] at hmem
    obtain ⟨e0, he0, hf⟩ := List.mem_map.mp hmem
    rw [← hf]
    exact h3 e0 he0

theorem entryOk_of_readEntry {segs : Segs} {k v : String} {cp : CommandPos}
    (h : readEntry segs cp = some (Command.set k v)) :
    entryOk segs k cp = true := by
  unfold entryOk
  rw [h]
  simp

theorem readEntry_mk (segs : Segs) (g p l : Nat) :
    readEntry segs ⟨g, p, l⟩ =
      match segLookup segs g with
      | some recs => readAt recs p l
      | none => none := rfl

/-- The record just appended to the current segment reads back from the
position the writer recorded for it. -/
theorem readEntry_appended_new {s : KvState} (hwf : WF s) (c : Command) :
    readEntry (segsAppendRec s.segs s.currentGen c)
      ⟨s.currentGen, segByteLen ((segLookup s.segs s.currentGen).getD []),
        recLen c⟩ = some c := by
  obtain ⟨pre, cur, heq, hlook, happ, _⟩ := appendCurrent_split hwf c
  rw [readEntry_mk, segLookup_segsAppendRec_self, hlook]
  exact readAt_concat cur c []

/-! ### `set` and `remove`: effect on well-formed states -/

theorem setCore_WF {s : KvState} (hwf : WF s) (k v : String) :
    WF (setCore s k v) := by
  obtain ⟨pre, cur, heq, hlook, happ, hreplay⟩ :=
    appendCurrent_split hwf (Command.set k v)
  obtain ⟨hd1, hd2, hd3⟩ := segsAppendRec_dir_facts hwf (Command.set k v)
  refine ⟨hd1, hd2, hd3, ?_, ?_, ?_⟩
  · exact idxInsert_sorted hwf.2.2.2.1 ..
  · intro e he
    rcases mem_idxInsert he with hE | hmem
    · subst hE
      exact entryOk_of_readEntry (readEntry_appended_new hwf (Command.set k v))
    · exact entryOk_segsAppendRec _ _ (hwf.2.2.2.2.1 e hmem)
  · show (replayList (segsAppendRec s.segs s.currentGen (Command.set k v))).1
      = idxInsert s.index k
          ⟨s.currentGen, segByteLen ((segLookup s.segs s.currentGen).getD []),
            recLen (Command.set k v)⟩
    rw [hlook, hreplay, loadRecs_cons_set]
    rfl

theorem setCore_get {s : KvState} (hwf : WF s) (k v k' : String) :
    get (setCore s k v) k' = if k' = k then .ok (some v) else get s k' := by
  by_cases hk : k' = k
  · subst hk
    rw [if_pos rfl]
    exact get_eq_of_readEntry (idxGet_idxInsert_self ..)
      (readEntry_appended_new hwf (Command.set k' v))
  · rw [if_neg hk]
    have hidx : idxGet (setCore s k v).index k' = idxGet s.index k' :=
      idxGet_idxInsert_ne _ _ hk
    cases hcp : idxGet s.index k' with
    | none =>
      rw [get_eq_none_of_miss (hidx.trans hcp), get_eq_none_of_miss hcp]
    | some cp =>
      obtain ⟨v', hre⟩ := entryOk_isSome (hwf.2.2.2.2.1 _ (idxGet_mem hcp))
      rw [get_eq_of_readEntry hcp hre,
        get_eq_of_readEntry (hidx.trans hcp) (readEntry_segsAppendRec _ _ hre)]

theorem removeCore_WF {s : KvState} (hwf : WF s) (k : String)
    (old : CommandPos) : WF (removeCore s k old) := by
  obtain ⟨pre, cur, heq, hlook, happ, hreplay⟩ :=
    appendCurrent_split hwf (Command.rm k)
  obtain ⟨hd1, hd2, hd3⟩ := segsAppendRec_dir_facts hwf (Command.rm k)
  refine ⟨hd1, hd2, hd3, ?_, ?_, ?_⟩
  · exact idxRemove_sorted hwf.2.2.2.1 k
  · intro e he
    exact entryOk_segsAppendRec _ _
      (hwf.2.2.2.2.1 e (List.mem_of_mem_filter he))
  · show (replayList (segsAppendRec s.segs s.currentGen (Command.rm k))).1 = _
    rw [hreplay, loadRecs_cons_rm]
    rfl

theorem removeCore_get {s : KvState} (hwf : WF s) (k : String)
    (old : CommandPos) (k' : String) :
    get (removeCore s k old) k' = if k' = k then .ok none else get s k' := by
  by_cases hk : k' = k
  · subst hk
    rw [if_pos rfl]
    exact get_eq_none_of_miss (idxGet_idxRemove_self ..)
  · rw [if_neg hk]
    have hidx : idxGet (removeCore s k old).index k' = idxGet s.index k' :=
      idxGet_idxRemove_ne _ hk
    cases hcp : idxGet s.index k' with
    | none =>
      rw [get_eq_none_of_miss (hidx.trans hcp), get_eq_none_of_miss hcp]
    | some cp =>
      obtain ⟨v', hre⟩ := entryOk_isSome (hwf.2.2.2.2.1 _ (idxGet_mem hcp))
      rw [get_eq_of_readEntry hcp hre,
        get_eq_of_readEntry (hidx.trans hcp) (readEntry_segsAppendRec _ _ hre)]

/-! ### Compaction: the copy loop -/

theorem compactLoop_cons (segs : Segs) (cgen : Nat) (k : String)
    (cp : CommandPos) (rest : List (String × CommandPos)) (idx : Idx)
    (sink : List Command) (newPos : Nat) {c : Command}
    (h : readEntry segs cp = some c) :
    compactLoop segs cgen ((k, cp) :: rest) idx sink newPos =
      compactLoop segs cgen rest
        (idxInsert idx k ⟨cgen, newPos, recLen c⟩)
        (sink ++ [c]) (newPos + recLen c) := by
  conv_lhs => rw [compactLoop]
  rw [h]

/-- Pure description of one compaction pass over the live entries:
the rewritten index entries and the sink contents, threading the sink
write position. -/
def specCompactLoop (segs : Segs) (cgen : Nat) :
    List (String × CommandPos) → Nat → Idx × List Command
  | [], _ => ([], [])
  | (k, cp) :: rest, pos =>
    match readEntry segs cp with
    | some c =>
      let t := specCompactLoop segs cgen rest (pos + recLen c)
      ((k, ⟨cgen, pos, recLen c⟩) :: t.1, c :: t.2)
    | none => ([], [])

theorem specCompactLoop_cons (segs : Segs) (cgen : Nat) (k : String)
    (cp : CommandPos) (rest : List (String × CommandPos)) (pos : Nat)
    {c : Command} (h : readEntry segs cp = some c) :
    specCompactLoop segs cgen ((k, cp) :: rest) pos =
      ((k, ⟨cgen, pos, recLen c⟩) ::
         (specCompactLoop segs cgen rest (pos + recLen c)).1,
       c :: (specCompactLoop segs cgen rest (pos + recLen c)).2) := by
  conv_lhs => rw [specCompactLoop]
  rw [h]

/-- The compaction loop, run over a sorted tail `l` of the index while
the evolving index is `done ++ l` (with `done` the already-rewritten
entries, all with smaller keys), matches its pure description. -/
theorem compactLoop_eq_spec (segs : Segs) (cgen : Nat) (l : Idx) :
    ∀ (done : Idx) (sink : List Command) (pos : Nat),
    (∀ e ∈ l, entryOk segs e.1 e.2 = true) →
    (∀ d ∈ done, ∀ e ∈ l, strLt d.1 e.1 = true) →
    IdxSorted l →
    compactLoop segs cgen l (done ++ l) sink pos =
      .ok (done ++ (specCompactLoop segs cgen l pos).1,
           sink ++ (specCompactLoop segs cgen l pos).2) := by
  induction l with
  | nil =>
    intro done sink pos _ _ _
    simp [compactLoop, specCompactLoop]
  | cons e rest ih =>
    intro done sink pos hok hdone hsorted
    obtain ⟨k, cp⟩ := e
    obtain ⟨v, hre⟩ := entryOk_isSome (hok (k, cp) (by simp))
    dsimp only at hre
    rw [IdxSorted, List.pairwise_cons] at hsorted
    have harg : ∀ d ∈ done ++
        [(k, (⟨cgen, pos, recLen (Command.set k v)⟩ : CommandPos))],
        ∀ e ∈ rest, strLt d.1 e.1 = true := by
      intro d hd e he
      rcases List.mem_append.mp hd with hd | hd
      · exact hdone d hd e (List.mem_cons_of_mem _ he)
      · simp only [List.mem_singleton] at hd
        rw [hd]
        exact hsorted.1 e he
    have hstep := ih (done ++ [(k, ⟨cgen, pos, recLen (Command.set k v)⟩)])
      (sink ++ [Command.set k v]) (pos + recLen (Command.set k v))
      (fun e he => hok e (List.mem_cons_of_mem _ he)) harg hsorted.2
    rw [compactLoop_cons segs cgen k cp rest _ _ _ hre,
      specCompactLoop_cons segs cgen k cp rest pos hre,
      idxInsert_replace_at cp ⟨cgen, pos, recLen (Command.set k v)⟩ rest
        (fun d hd => hdone d hd (k, cp) (by simp)),
      List.append_cons done (k, ⟨cgen, pos, recLen (Command.set k v)⟩) rest,
      hstep]
    simp

theorem readEntry_len {segs : Segs} {cp : CommandPos} {c : Command}
    (h : readEntry segs cp = some c) : cp.len = recLen c := by
  unfold readEntry at h
  cases hl : segLookup segs cp.gen with
  | none => rw [hl] at h; simp at h
  | some recs => rw [hl] at h; exact readAt_len_eq h

theorem specCompactLoop_keys (segs : Segs) (cgen : Nat) (l : Idx)
    (pos : Nat) (hok : ∀ e ∈ l, entryOk segs e.1 e.2 = true) :
    (specCompactLoop segs cgen l pos).1.map Prod.fst = l.map Prod.fst := by
  induction l generalizing pos with
  | nil => rfl
  | cons e rest ih =>
    obtain ⟨k, cp⟩ := e
    obtain ⟨v, hre⟩ := entryOk_isSome (hok (k, cp) (by simp))
    dsimp only at hre
    rw [specCompactLoop_cons segs cgen k cp rest pos hre]
    simp only [List.map_cons]
    rw [ih _ (fun e he => hok e (List.mem_cons_of_mem _ he))]

/-- Spec-side description of the index after compaction (§4.3.5 step 3
of the spec): every live entry, in key order, re-pointed at `cgen` with
its length unchanged, each offset the running sum of the preceding
lengths. -/
def compactedEntries (cgen : Nat) : Nat → Idx → Idx
  | _, [] => []
  | pos, (k, cp) :: rest =>
    (k, ⟨cgen, pos, cp.len⟩) :: compactedEntries cgen (pos + cp.len) rest

theorem specCompactLoop_eq_compactedEntries (segs : Segs) (cgen : Nat)
    (l : Idx) (pos : Nat) (hok : ∀ e ∈ l, entryOk segs e.1 e.2 = true) :
    (specCompactLoop segs cgen l pos).1 = compactedEntries cgen pos l := by
  induction l generalizing pos with
  | nil => rfl
  | cons e rest ih =>
    obtain ⟨k, cp⟩ := e
    obtain ⟨v, hre⟩ := entryOk_isSome (hok (k, cp) (by simp))
    dsimp only at hre
    have hlen : cp.len = recLen (Command.set k v) := readEntry_len hre
    rw [specCompactLoop_cons segs cgen k cp rest pos hre]
    show ((k, ⟨cgen, pos, recLen (Command.set k v)⟩) :: _ : Idx) = _
    rw [compactedEntries, hlen,
      ih _ (fun e he => hok e (List.mem_cons_of_mem _ he))]

theorem specCompactLoop_get (segs : Segs) (cgen : Nat) (l : Idx)
    (pos : Nat) (hok : ∀ e ∈ l, entryOk segs e.1 e.2 = true)
    {k : String} {cp : CommandPos} (h : idxGet l k = some cp) :
    ∃ v pre suf,
      readEntry segs cp = some (Command.set k v) ∧
      (specCompactLoop segs cgen l pos).2 = pre ++ Command.set k v :: suf ∧
      idxGet (specCompactLoop segs cgen l pos).1 k =
        some ⟨cgen, pos + segByteLen pre, recLen (Command.set k v)⟩ := by
  induction l generalizing pos with
  | nil => simp [idxGet] at h
  | cons e rest ih =>
    obtain ⟨k0, cp0⟩ := e
    obtain ⟨v0, hre0⟩ := entryOk_isSome (hok (k0, cp0) (by simp))
    dsimp only at hre0
    rw [specCompactLoop_cons segs cgen k0 cp0 rest pos hre0]
    by_cases hk : k = k0
    · subst hk
      simp only [idxGet, if_pos rfl] at h
      cases h
      exact ⟨v0, [], (specCompactLoop segs cgen rest
          (pos + recLen (Command.set k v0))).2, hre0,
        by simp, by simp [idxGet, segByteLen]⟩
    · simp only [idxGet, if_neg hk] at h
      obtain ⟨v, pre, suf, hre, hsink, hget⟩ :=
        ih (pos + recLen (Command.set k0 v0))
          (fun e he => hok e (List.mem_cons_of_mem _ he)) h
      refine ⟨v, Command.set k0 v0 :: pre, suf, hre, by simp [hsink], ?_⟩
      show (if k = k0 then _ else _) = _
      rw [if_neg hk, hget, segByteLen_cons, ← Nat.add_assoc]

theorem specCompactLoop_mem (segs : Segs) (cgen : Nat) (l : Idx)
    (pos : Nat) (hok : ∀ e ∈ l, entryOk segs e.1 e.2 = true) :
    ∀ e ∈ (specCompactLoop segs cgen l pos).1,
      ∃ v pre suf,
        (specCompactLoop segs cgen l pos).2 =
          pre ++ Command.set e.1 v :: suf ∧
        e.2 = ⟨cgen, pos + segByteLen pre, recLen (Command.set e.1 v)⟩ := by
  induction l generalizing pos with
  | nil => simp [specCompactLoop]
  | cons e0 rest ih =>
    obtain ⟨k0, cp0⟩ := e0
    obtain ⟨v0, hre0⟩ := entryOk_isSome (hok (k0, cp0) (by simp))
    dsimp only at hre0
    rw [specCompactLoop_cons segs cgen k0 cp0 rest pos hre0]
    intro e he
    rcases List.mem_cons.mp he with hE | hmem
    · subst hE
      exact ⟨v0, [], (specCompactLoop segs cgen rest
          (pos + recLen (Command.set k0 v0))).2, by simp,
        by simp [segByteLen]⟩
    · obtain ⟨v, pre, suf, hsink, hcp⟩ :=
        ih (pos + recLen (Command.set k0 v0))
          (fun e he => hok e (List.mem_cons_of_mem _ he)) e hmem
      exact ⟨v, Command.set k0 v0 :: pre, suf, by simp [hsink],
        by rw [hcp, segByteLen_cons, ← Nat.add_assoc]⟩

theorem idxSorted_iff_keys (l : Idx) :
    IdxSorted l ↔
      List.Pairwise (fun a b => strLt a b = true) (l.map Prod.fst) := by
  rw [IdxSorted, List.pairwise_map]

theorem specCompactLoop_sorted (segs : Segs) (cgen : Nat) (l : Idx)
    (pos : Nat) (hok : ∀ e ∈ l, entryOk segs e.1 e.2 = true)
    (hs : IdxSorted l) :
    IdxSorted (specCompactLoop segs cgen l pos).1 := by
  rw [idxSorted_iff_keys, specCompactLoop_keys segs cgen l pos hok]
  rw [idxSorted_iff_keys] at hs
  exact hs

/-- Replaying the compaction sink from an empty index rebuilds exactly
the rewritten entries. -/
theorem load_specSink (segs : Segs) (cgen : Nat) (l : Idx) :
    ∀ (pos : Nat) (idx0 : Idx) (unc : Nat),
    (∀ e ∈ l, entryOk segs e.1 e.2 = true) →
    IdxSorted l →
    (∀ d ∈ idx0, ∀ e ∈ l, strLt d.1 e.1 = true) →
    (loadRecs cgen (specCompactLoop segs cgen l pos).2 pos idx0 unc).1 =
      idx0 ++ (specCompactLoop segs cgen l pos).1 := by
  induction l with
  | nil =>
    intro pos idx0 unc _ _ _
    simp [specCompactLoop, loadRecs]
  | cons e rest ih =>
    intro pos idx0 unc hok hs hacc
    obtain ⟨k, cp⟩ := e
    obtain ⟨v, hre⟩ := entryOk_isSome (hok (k, cp) (by simp))
    dsimp only at hre
    rw [IdxSorted, List.pairwise_cons] at hs
    have harg : ∀ d ∈ idx0 ++
        [(k, (⟨cgen, pos, recLen (Command.set k v)⟩ : CommandPos))],
        ∀ e ∈ rest, strLt d.1 e.1 = true := by
      intro d hd e he
      rcases List.mem_append.mp hd with hd | hd
      · exact hacc d hd e (List.mem_cons_of_mem _ he)
      · simp only [List.mem_singleton] at hd
        rw [hd]
        exact hs.1 e he
    have hstep := ih (pos + recLen (Command.set k v))
      (idx0 ++ [(k, ⟨cgen, pos, recLen (Command.set k v)⟩)])
      (unc + match idxGet idx0 k with | some old => old.len | none => 0)
      (fun e he => hok e (List.mem_cons_of_mem _ he)) hs.2 harg
    rw [specCompactLoop_cons segs cgen k cp rest pos hre, loadRecs_cons_set,
      idxInsert_append_of_gt k ⟨cgen, pos, recLen (Command.set k v)⟩
        (fun d hd => hacc d hd (k, cp) (by simp)),
      hstep]
    simp

/-! ### Compaction: directory bookkeeping -/

theorem loadRecs_nil (gen pos : Nat) (idx : Idx) (unc : Nat) :
    loadRecs gen [] pos idx unc = (idx, unc) := rfl

theorem readEntry_append {segs : Segs} {cp : CommandPos} {c : Command}
    (h : readEntry segs cp = some c) (more : Segs) :
    readEntry (segs ++ more) cp = some c := by
  unfold readEntry at h ⊢
  cases hl : segLookup segs cp.gen with
  | none => rw [hl] at h; simp at h
  | some recs =>
    rw [hl] at h
    rw [segLookup_append_of_some hl]
    exact h

theorem entryOk_append {segs : Segs} {k : String} {cp : CommandPos}
    (h : entryOk segs k cp = true) (more : Segs) :
    entryOk (segs ++ more) k cp = true := by
  obtain ⟨v, hre⟩ := entryOk_isSome h
  exact entryOk_of_readEntry (readEntry_append hre more)

theorem newLogFile_insert_mid {l1 : Segs} {gen g2 : Nat} (x : List Command)
    (h1 : ∀ e ∈ l1, e.1 < gen) (h2 : gen < g2) :
    newLogFile (l1 ++ [(g2, x)]) gen = l1 ++ [(gen, []), (g2, x)] := by
  induction l1 with
  | nil =>
    simp only [List.nil_append, newLogFile]
    rw [if_pos h2]
  | cons e rest ih =>
    obtain ⟨g0, r0⟩ := e
    have h0 := h1 (g0, r0) (by simp)
    simp only [List.cons_append, newLogFile]
    rw [if_neg (by omega), if_neg (by omega)]
    exact congrArg (fun t => (g0, r0) :: t)
      (ih fun e he => h1 e (List.mem_cons_of_mem _ he))

theorem segsSet_pair (g1 g2 : Nat) (x1 x2 y : List Command) (hne : g2 ≠ g1) :
    segsSet [(g1, x1), (g2, x2)] g1 y = [(g1, y), (g2, x2)] := by
  simp [segsSet, hne]

theorem segsSorted_nodup {segs : Segs} (hs : SegsSorted segs) :
    (segs.map Prod.fst).Nodup :=
  List.Pairwise.imp (fun h => Nat.ne_of_lt h) hs

theorem deleteStales_all (delSegs rest : Segs)
    (hnd : (delSegs.map Prod.fst).Nodup)
    (hdisj : ∀ e ∈ rest, e.1 ∉ delSegs.map Prod.fst) :
    deleteStales (fun _ => false) (delSegs ++ rest) (delSegs.map Prod.fst) =
      .ok rest := by
  induction delSegs with
  | nil => simp [deleteStales]
  | cons e tl ih =>
    obtain ⟨g, r⟩ := e
    rw [List.map_cons, List.nodup_cons] at hnd
    have hgtl : g ∉ tl.map Prod.fst := hnd.1
    have hgrest : g ∉ rest.map Prod.fst := by
      intro hmem
      obtain ⟨e, he, hf⟩ := List.mem_map.mp hmem
      exact hdisj e he (by rw [List.map_cons, hf]; exact List.mem_cons_self ..)
    have hdel : segsDelete ((g, r) :: (tl ++ rest)) g = tl ++ rest := by
      have htail : segsDelete (tl ++ rest) g = tl ++ rest := by
        rw [segsDelete_append, segsDelete_eq_of_not_mem hgtl,
          segsDelete_eq_of_not_mem hgrest]
      calc segsDelete ((g, r) :: (tl ++ rest)) g
          = segsDelete (tl ++ rest) g := by simp [segsDelete]
        _ = tl ++ rest := htail
    have hstep : deleteStales (fun _ => false) ((g, r) :: tl ++ rest)
        (g :: tl.map Prod.fst) =
        deleteStales (fun _ => false) (tl ++ rest) (tl.map Prod.fst) := by
      conv_lhs => rw [deleteStales]
      rw [if_neg (by simp)]
      rw [show ((g, r) :: tl ++ rest : Segs) = (g, r) :: (tl ++ rest) from rfl,
        hdel]
    rw [List.map_cons]
    dsimp only
    rw [hstep]
    exact ih hnd.2 fun e he hmem =>
      hdisj e he (by rw [List.map_cons]; exact List.mem_cons_of_mem _ hmem)

/-- Master description of a successful compaction of a well-formed
state: the resulting directory, generations, index, counter; the
result is well formed and observably equivalent. -/
theorem compact_spec {s : KvState} (hwf : WF s) :
    ∃ s' sink, compact s = .ok s' ∧
      s'.segs = [(s.currentGen + 1, sink), (s.currentGen + 2, [])] ∧
      s'.currentGen = s.currentGen + 2 ∧
      s'.safePoint = s.currentGen + 1 ∧
      s'.index = compactedEntries (s.currentGen + 1) 0 s.index ∧
      s'.uncompacted = 0 ∧
      WF s' ∧
      (∀ k, get s' k = get s k) := by
  obtain ⟨h1, h2, h3, h4, h5, h6⟩ := hwf
  have hseg1 : newLogFile s.segs (s.currentGen + 2) =
      s.segs ++ [(s.currentGen + 2, [])] :=
    newLogFile_append_of_gt (fun e he => by have := h3 e he; omega)
  have hseg2 : newLogFile (s.segs ++ [(s.currentGen + 2, ([] : List Command))])
      (s.currentGen + 1) =
      s.segs ++ [(s.currentGen + 1, []), (s.currentGen + 2, [])] :=
    newLogFile_insert_mid ([] : List Command)
      (fun e he => by have := h3 e he; omega) (by omega)
  have hok2 : ∀ e ∈ s.index,
      entryOk (s.segs ++ [(s.currentGen + 1, []), (s.currentGen + 2, [])])
        e.1 e.2 = true :=
    fun e he => entryOk_append (h5 e he) _
  have hloop := compactLoop_eq_spec
    (s.segs ++ [(s.currentGen + 1, []), (s.currentGen + 2, [])])
    (s.currentGen + 1) s.index [] [] 0 hok2 (by simp) h4
  simp only [List.nil_append] at hloop
  have hnotmem1 : s.currentGen + 1 ∉ s.segs.map Prod.fst := by
    intro hmem
    obtain ⟨e, he, hf⟩ := List.mem_map.mp hmem
    have := h3 e he
    omega
  have hset : segsSet
      (s.segs ++ [(s.currentGen + 1, []), (s.currentGen + 2, [])])
      (s.currentGen + 1)
      (specCompactLoop
        (s.segs ++ [(s.currentGen + 1, []), (s.currentGen + 2, [])])
        (s.currentGen + 1) s.index 0).2 =
      s.segs ++ [(s.currentGen + 1,
        (specCompactLoop
          (s.segs ++ [(s.currentGen + 1, []), (s.currentGen + 2, [])])
          (s.currentGen + 1) s.index 0).2), (s.currentGen + 2, [])] := by
    rw [segsSet_append, segsSet_eq_of_not_mem _ hnotmem1,
      segsSet_pair _ _ _ _ _ (by omega)]
  have hmap3 : (s.segs ++ [(s.currentGen + 1,
      (specCompactLoop
        (s.segs ++ [(s.currentGen + 1, []), (s.currentGen + 2, [])])
        (s.currentGen + 1) s.index 0).2), (s.currentGen + 2, [])]).map
      Prod.fst =
      s.segs.map Prod.fst ++ [s.currentGen + 1, s.currentGen + 2] := by
    simp
  have hsorted3 : List.Pairwise (· ≤ ·)
      (s.segs.map Prod.fst ++ [s.currentGen + 1, s.currentGen + 2]) := by
    rw [List.pairwise_append]
    refine ⟨List.Pairwise.imp (fun h => Nat.le_of_lt h) h1, by simp, ?_⟩
    intro a ha b hb
    obtain ⟨e, he, hf⟩ := List.mem_map.mp ha
    have := h3 e he
    simp only [List.mem_cons, List.mem_singleton] at hb
    rcases hb with hb | hb | hb
    · omega
    · omega
    · simp at hb
  have hstales : (sortGens
      (s.segs.map Prod.fst ++ [s.currentGen + 1, s.currentGen + 2])).filter
      (fun gn => gn < s.currentGen + 1) = s.segs.map Prod.fst := by
    rw [sortGens_eq_self hsorted3, List.filter_append]
    have hl : (s.segs.map Prod.fst).filter
        (fun gn => gn < s.currentGen + 1) = s.segs.map Prod.fst := by
      rw [List.filter_eq_self]
      intro a ha
      obtain ⟨e, he, hf⟩ := List.mem_map.mp ha
      have := h3 e he
      simp only [decide_eq_true_eq]
      omega
    have hr : ([s.currentGen + 1, s.currentGen + 2]).filter
        (fun gn => gn < s.currentGen + 1) = [] := by
      simp
    rw [hl, hr, List.append_nil]
  have hdisj : ∀ e ∈ [(s.currentGen + 1,
      (specCompactLoop
        (s.segs ++ [(s.currentGen + 1, []), (s.currentGen + 2, [])])
        (s.currentGen + 1) s.index 0).2), (s.currentGen + 2, ([] : List Command))],
      e.1 ∉ s.segs.map Prod.fst := by
    intro e he hmem
    obtain ⟨e0, he0, hf⟩ := List.mem_map.mp hmem
    have := h3 e0 he0
    simp only [List.mem_cons, List.mem_singleton] at he
    rcases he with he | he | he
    · rw [he] at hf
      simp at hf
      omega
    · rw [he] at hf
      simp at hf
      omega
    · simp at he
  have hdelete := deleteStales_all s.segs
    [(s.currentGen + 1,
      (specCompactLoop
        (s.segs ++ [(s.currentGen + 1, []), (s.currentGen + 2, [])])
        (s.currentGen + 1) s.index 0).2), (s.currentGen + 2, [])]
    (segsSorted_nodup h1) hdisj
  have hfinal : compact s = .ok
      { segs := [(s.currentGen + 1,
          (specCompactLoop
            (s.segs ++ [(s.currentGen + 1, []), (s.currentGen + 2, [])])
            (s.currentGen + 1) s.index 0).2), (s.currentGen + 2, [])],
        currentGen := s.currentGen + 2,
        safePoint := s.currentGen + 1,
        index := (specCompactLoop
          (s.segs ++ [(s.currentGen + 1, []), (s.currentGen + 2, [])])
          (s.currentGen + 1) s.index 0).1,
        uncompacted := 0 } := by
    unfold compact compactFs
    dsimp only
    rw [hseg1, hseg2, hloop]
    dsimp only
    rw [hset, hmap3, hstales, hdelete]
  set sink1 := (specCompactLoop
      (s.segs ++ [(s.currentGen + 1, []), (s.currentGen + 2, [])])
      (s.currentGen + 1) s.index 0).2 with hsink1
  set idx1 := (specCompactLoop
      (s.segs ++ [(s.currentGen + 1, []), (s.currentGen + 2, [])])
      (s.currentGen + 1) s.index 0).1 with hidx1
  have hlookc : segLookup
      [(s.currentGen + 1, sink1), (s.currentGen + 2, [])]
      (s.currentGen + 1) = some sink1 := by
    simp [segLookup]
  refine ⟨(⟨[(s.currentGen + 1, sink1), (s.currentGen + 2, [])],
      s.currentGen + 2, s.currentGen + 1, idx1, 0⟩ : KvState),
    sink1, hfinal, rfl, rfl, rfl,
    ?_, rfl, ⟨?_, ?_, ?_, ?_, ?_, ?_⟩, ?_⟩
  · exact specCompactLoop_eq_compactedEntries _ _ _ _ hok2
  · show SegsSorted [(s.currentGen + 1, sink1), (s.currentGen + 2, [])]
    rw [SegsSorted]
    simp
  · show (segLookup [(s.currentGen + 1, sink1), (s.currentGen + 2, [])]
      (s.currentGen + 2)).isSome = true
    simp [segLookup, show s.currentGen + 2 ≠ s.currentGen + 1 from by omega]
  · intro e he
    simp only [List.mem_cons, List.not_mem_nil, or_false] at he
    rcases he with he | he
    · rw [he]
      show s.currentGen + 1 ≤ s.currentGen + 2
      omega
    · rw [he]
  · exact specCompactLoop_sorted _ _ _ _ hok2 h4
  · intro e he
    obtain ⟨v, pre, suf, hsink2, hcp⟩ :=
      specCompactLoop_mem _ _ _ _ hok2 e he
    show entryOk [(s.currentGen + 1, sink1), (s.currentGen + 2, [])]
      e.1 e.2 = true
    rw [hcp]
    refine entryOk_of_readEntry (v := v) ?_
    rw [readEntry_mk, hlookc, Nat.zero_add, hsink1, hsink2]
    exact readAt_concat pre (Command.set e.1 v) suf
  · show (replayList [(s.currentGen + 1, sink1), (s.currentGen + 2, [])]).1
      = idx1
    unfold replayList
    rw [replayFrom_cons]
    dsimp only
    rw [replayFrom_cons, replayFrom_nil]
    dsimp only
    rw [loadRecs_nil]
    show (loadRecs (s.currentGen + 1) sink1 0 [] 0).1 = idx1
    rw [hsink1, hidx1]
    have := load_specSink
      (s.segs ++ [(s.currentGen + 1, []), (s.currentGen + 2, [])])
      (s.currentGen + 1) s.index 0 [] 0 hok2 h4 (by simp)
    rw [this]
    simp
  · intro k
    cases hcp : idxGet s.index k with
    | none =>
      have hk1 : idxGet idx1 k = none := by
        rw [idxGet_eq_none_iff] at hcp ⊢
        rw [hidx1, specCompactLoop_keys _ _ _ _ hok2]
        exact hcp
      rw [get_eq_none_of_miss hk1, get_eq_none_of_miss hcp]
    | some cp =>
      obtain ⟨v, pre, suf, hre2, hsink2, hget2⟩ :=
        specCompactLoop_get _ _ _ 0 hok2 hcp
      obtain ⟨v', hre0⟩ := entryOk_isSome (h5 _ (idxGet_mem hcp))
      have hv : v' = v := by
        have happ := readEntry_append hre0
          [(s.currentGen + 1, []), (s.currentGen + 2, [])]
        rw [happ] at hre2
        simp only [Option.some.injEq, Command.set.injEq] at hre2
        exact hre2.2
      have hre' : readEntry [(s.currentGen + 1, sink1), (s.currentGen + 2, [])]
          (⟨s.currentGen + 1, 0 + segByteLen pre,
            recLen (Command.set k v)⟩ : CommandPos) =
          some (Command.set k v) := by
        rw [readEntry_mk, hlookc, Nat.zero_add, hsink1, hsink2]
        exact readAt_concat pre (Command.set k v) suf
      rw [get_eq_of_readEntry
        (s := (⟨[(s.currentGen + 1, sink1), (s.currentGen + 2, [])],
          s.currentGen + 2, s.currentGen + 1, idx1, 0⟩ : KvState))
        hget2 hre']
      rw [hv] at hre0
      rw [get_eq_of_readEntry hcp hre0]

/-! ### The top-level operations on well-formed states -/

theorem doSet_spec {s : KvState} (hwf : WF s) (k v : String) :
    ∃ s', doSet s k v = .ok s' ∧ WF s' ∧
      (∀ k', get s' k' = if k' = k then .ok (some v) else get s k') := by
  have hwf1 := setCore_WF hwf k v
  have hget1 := setCore_get hwf k v
  unfold doSet
  dsimp only
  by_cases hth : (setCore s k v).uncompacted > COMPACTION_THRESHOLD
  · rw [if_pos hth]
    obtain ⟨s', sink, hok, _, _, _, _, _, hwf', hget'⟩ := compact_spec hwf1
    exact ⟨s', hok, hwf', fun k' => (hget' k').trans (hget1 k')⟩
  · rw [if_neg hth]
    exact ⟨setCore s k v, rfl, hwf1, hget1⟩

theorem doRemove_some {s : KvState} {k : String} {old : CommandPos}
    (h : idxGet s.index k = some old) :
    doRemove s k = .ok (removeCore s k old) := by
  unfold doRemove
  rw [h]

theorem doRemove_none {s : KvState} {k : String}
    (h : idxGet s.index k = none) :
    doRemove s k = .error .keyNotFound := by
  unfold doRemove
  rw [h]

/-- One `applyOp` step on a well-formed state: well-formedness is
preserved and each key's `get` result evolves last-writer-wins. -/
theorem applyOp_spec {s : KvState} (hwf : WF s) (op : Op) :
    WF (applyOp s op) ∧
      ∀ k, get (applyOp s op) k =
        (match op with
         | Op.set k' v => if k' = k then .ok (some v) else get s k
         | Op.remove k' => if k' = k then .ok none else get s k) := by
  cases op with
  | set k' v =>
    obtain ⟨s', hok, hwf', hget'⟩ := doSet_spec hwf k' v
    have happ : applyOp s (Op.set k' v) = s' := by
      unfold applyOp
      dsimp only
      rw [hok]
    rw [happ]
    refine ⟨hwf', fun k => ?_⟩
    dsimp only
    rw [hget' k]
    by_cases hk : k = k'
    · rw [if_pos hk, if_pos hk.symm]
    · rw [if_neg hk, if_neg fun hE => hk hE.symm]
  | remove k' =>
    cases hidx : idxGet s.index k' with
    | some old =>
      have happ : applyOp s (Op.remove k') = removeCore s k' old := by
        unfold applyOp
        dsimp only
        rw [doRemove_some hidx]
      rw [happ]
      refine ⟨removeCore_WF hwf k' old, fun k => ?_⟩
      dsimp only
      rw [removeCore_get hwf k' old k]
      by_cases hk : k = k'
      · rw [if_pos hk, if_pos hk.symm]
      · rw [if_neg hk, if_neg fun hE => hk hE.symm]
    | none =>
      have happ : applyOp s (Op.remove k') = s := by
        unfold applyOp
        dsimp only
        rw [doRemove_none hidx]
      rw [happ]
      refine ⟨hwf, fun k => ?_⟩
      dsimp only
      by_cases hk : k' = k
      · rw [if_pos hk]
        exact get_eq_none_of_miss (by rw [← hk]; exact hidx)
      · rw [if_neg hk]

/-- Running a write sequence from a well-formed state: well-formedness
is preserved and each key's value is the last-writer-wins fold. -/
theorem runOps_spec (ops : List Op) :
    ∀ (s : KvState) (m : String → Option String), WF s →
    (∀ k, get s k = .ok (m k)) →
    WF (runOps s ops) ∧
      ∀ k, get (runOps s ops) k = .ok (specFrom (m k) ops k) := by
  induction ops with
  | nil =>
    intro s m hwf hm
    exact ⟨hwf, fun k => hm k⟩
  | cons op rest ih =>
    intro s m hwf hm
    obtain ⟨hwf', hget'⟩ := applyOp_spec hwf op
    have hstep : ∀ k, get (applyOp s op) k =
        .ok (specStep k (m k) op) := by
      intro k
      cases op with
      | set k' v =>
        rw [hget' k]
        dsimp only
        show _ = .ok (if k' = k then some v else m k)
        by_cases hk : k' = k
        · rw [if_pos hk, if_pos hk]
        · rw [if_neg hk, if_neg hk, hm k]
      | remove k' =>
        rw [hget' k]
        dsimp only
        show _ = .ok (if k' = k then none else m k)
        by_cases hk : k' = k
        · rw [if_pos hk, if_pos hk]
        · rw [if_neg hk, if_neg hk, hm k]
    exact ih (applyOp s op) (fun k => specStep k (m k) op) hwf' hstep

theorem get_openEmpty (k : String) : get (openFromDir []) k = .ok none := rfl

/-! ### Frame lemmas for the spec-side fold -/

theorem specFrom_nil (a : Option String) (k : String) :
    specFrom a [] k = a := rfl

theorem specFrom_cons (a : Option String) (op : Op) (ops : List Op)
    (k : String) :
    specFrom a (op :: ops) k = specFrom (specStep k a op) ops k := rfl

theorem specFrom_append (a : Option String) (l1 l2 : List Op) (k : String) :
    specFrom a (l1 ++ l2) k = specFrom (specFrom a l1 k) l2 k := by
  simp [specFrom, List.foldl_append]

theorem specFrom_frame {ops : List Op} {k : String}
    (h : ∀ op ∈ ops, opKey op ≠ k) (a : Option String) :
    specFrom a ops k = a := by
  induction ops generalizing a with
  | nil => rfl
  | cons op rest ih =>
    cases op with
    | set k' v =>
      have hop : k' ≠ k := h (Op.set k' v) (by simp)
      rw [specFrom_cons]
      show specFrom (if k' = k then some v else a) rest k = a
      rw [if_neg hop]
      exact ih (fun o ho => h o (List.mem_cons_of_mem _ ho)) a
    | remove k' =>
      have hop : k' ≠ k := h (Op.remove k') (by simp)
      rw [specFrom_cons]
      show specFrom (if k' = k then none else a) rest k = a
      rw [if_neg hop]
      exact ih (fun o ho => h o (List.mem_cons_of_mem _ ho)) a

/-! ### Reopening a directory -/

theorem rebuild_sorted_dir {segs : Segs} (hs : SegsSorted segs) :
    (segs.map Prod.fst).map (fun g => (g, (segLookup segs g).getD []))
      = segs := by
  induction segs with
  | nil => rfl
  | cons e rest ih =>
    obtain ⟨g0, r0⟩ := e
    rw [SegsSorted, List.map_cons, List.pairwise_cons] at hs
    simp only [List.map_cons]
    congr 1
    · simp [segLookup]
    · have hcongr : ∀ g' ∈ rest.map Prod.fst,
          (fun g => (g, (segLookup ((g0, r0) :: rest) g).getD []))
            g' =
          (fun g => (g, (segLookup rest g).getD [])) g' := by
        intro g' hg'
        have := hs.1 g' hg'
        simp [segLookup, show g' ≠ g0 from by omega]
      rw [List.map_congr_left hcongr]
      exact ih hs.2

/-- Reopening the directory of a well-formed store: the rebuilt index
is exactly the in-memory index, and the directory gains one fresh
empty segment. -/
theorem openFromDir_of_WF {s : KvState} (hwf : WF s) :
    (openFromDir s.segs).index = s.index ∧
    (openFromDir s.segs).segs =
      s.segs ++ [((sortGens (s.segs.map Prod.fst)).getLast?.getD 0 + 1, [])]
      := by
  obtain ⟨h1, _, _, _, _, h6⟩ := hwf
  have hgen : sortGens (s.segs.map Prod.fst) = s.segs.map Prod.fst :=
    sortGens_eq_self (List.Pairwise.imp (fun h => Nat.le_of_lt h) h1)
  constructor
  · show (replayList ((sortGens (s.segs.map Prod.fst)).map
      (fun g => (g, (segLookup s.segs g).getD [])))).1 = s.index
    rw [hgen, rebuild_sorted_dir h1]
    exact h6
  · show ((sortGens (s.segs.map Prod.fst)).map
        (fun g => (g, (segLookup s.segs g).getD []))) ++ _ = _
    rw [hgen, rebuild_sorted_dir h1]

/-- Reopening the directory of a well-formed store changes no `get`
result. -/
theorem reopen_get {s : KvState} (hwf : WF s) (k : String) :
    get (openFromDir s.segs) k = get s k := by
  obtain ⟨hindex', hsegs'⟩ := openFromDir_of_WF hwf
  have h5 := hwf.2.2.2.2.1
  cases hcp : idxGet s.index k with
  | none =>
    rw [get_eq_none_of_miss (by rw [hindex']; exact hcp),
      get_eq_none_of_miss hcp]
  | some cp =>
    obtain ⟨v, hre⟩ := entryOk_isSome (h5 _ (idxGet_mem hcp))
    dsimp only at hre
    rw [get_eq_of_readEntry hcp hre]
    exact @get_eq_of_readEntry (openFromDir s.segs) k v cp
      (by rw [hindex']; exact hcp)
      (by rw [hsegs']; exact readEntry_append hre _)

/-! ### Extremal elements of sorted generation lists -/

theorem getLastD_mem_of_ne_nil {ls : List Nat} (h : ls ≠ []) (d : Nat) :
    (ls.getLast?).getD d ∈ ls := by
  rw [List.getLast?_eq_getLast ls h, Option.getD_some]
  exact List.getLast_mem h

theorem le_getLastD_of_sorted {ls : List Nat}
    (hs : List.Pairwise (· ≤ ·) ls) {a : Nat} (ha : a ∈ ls) (d : Nat) :
    a ≤ (ls.getLast?).getD d := by
  induction ls with
  | nil => simp at ha
  | cons h t ih =>
    rw [List.pairwise_cons] at hs
    rcases List.mem_cons.mp ha with ha | ha
    · subst ha
      cases t with
      | nil => simp
      | cons h2 t2 =>
        have hmem : (((h2 :: t2).getLast?).getD d) ∈ h2 :: t2 :=
          getLastD_mem_of_ne_nil (by simp) d
        rw [List.getLast?_cons_cons]
        exact hs.1 _ hmem
    · rw [show ((h :: t).getLast?) = t.getLast? from ?_]
      · exact ih hs.2 ha
      · cases t with
        | nil => simp at ha
        | cons h2 t2 => rw [List.getLast?_cons_cons]

theorem headD_le_of_sorted {ls : List Nat}
    (hs : List.Pairwise (· ≤ ·) ls) {a : Nat} (ha : a ∈ ls) (d : Nat) :
    (ls.head?).getD d ≤ a := by
  cases ls with
  | nil => simp at ha
  | cons h t =>
    rw [List.pairwise_cons] at hs
    rcases List.mem_cons.mp ha with ha | ha
    · subst ha
      simp
    · simpa using hs.1 a ha

theorem headD_mem_of_ne_nil {ls : List Nat} (h : ls ≠ []) (d : Nat) :
    (ls.head?).getD d ∈ ls := by
  cases ls with
  | nil => exact absurd rfl h
  | cons a t => simp

theorem sortGens_ne_nil {l : List Nat} (h : l ≠ []) : sortGens l ≠ [] := by
  cases l with
  | nil => exact absurd rfl h
  | cons a t =>
    intro hE
    have : a ∈ sortGens (a :: t) := mem_sortGens.mpr (by simp)
    rw [hE] at this
    simp at this

/-! ### The shared-queue thread pool (`src/thread_pool.rs`)

Worker-lifecycle model of `SharedQueueThreadPool`.  A worker is the
thread spawned by `run_receiver`, looping `while !terminated { recv;
job() }` while owning a `RecoverableReceiver(receiver, terminated)`
guard.  Events are modelled atomically:

* a job runs to completion — no state change;
* a job panics — the worker's guard is dropped during the unwind,
  `thread::panicking()` is true, and `run_receiver(self.clone())`
  spawns a fresh worker holding a clone of the same receiver and the
  same shutdown flag, replacing the dead one;
* `stop` stores `true` in the shared flag;
* a worker observes the flag and exits the loop — its guard is dropped
  with `thread::panicking()` false, so no replacement is spawned.

Channels and flags are identified by number so that "attached to the
same channel and shutdown flag" is expressible. -/

/-- A live worker thread: its identity, the channel its receiver clone
draws from, and the shutdown flag it polls. -/
structure PoolWorker where
  tid : Nat
  chan : Nat
  flag : Nat
deriving DecidableEq, Repr

/-- The live workers of a `SharedQueueThreadPool`, the pool's channel
and flag, the flag's value, and a counter for fresh thread ids. -/
structure PoolState where
  workers : List PoolWorker
  chan : Nat
  flag : Nat
  terminated : Bool
  nextTid : Nat
deriving DecidableEq, Repr

/-- `SharedQueueThreadPool::new(threads)`: `threads` workers, all
drawing from one bounded channel and polling one shutdown flag. -/
def mkPool (threads : Nat) (c f : Nat) : PoolState :=
  { workers := (List.range threads).map fun i => ⟨i, c, f⟩,
    chan := c, flag := f, terminated := false, nextTid := threads }

/-- An atomic event in the life of the pool. -/
inductive PoolEvent where
  | runJob (i : Nat)
  | panicJob (i : Nat)
  | observeShutdown (i : Nat)
  | stop
deriving DecidableEq, Repr

/-- One event step; `none` when the event cannot occur (no such
worker, or an exit without the flag set). -/
def poolStep (s : PoolState) : PoolEvent → Option PoolState
  | .runJob i =>
    if i < s.workers.length then some s else none
  | .panicJob i =>
    match s.workers.get? i with
    | some w =>
      some { s with
        workers := s.workers.set i ⟨s.nextTid, w.chan, w.flag⟩,
        nextTid := s.nextTid + 1 }
    | none => none
  | .observeShutdown i =>
    if s.terminated = true ∧ i < s.workers.length then
      some { s with workers := s.workers.eraseIdx i }
    else none
  | .stop => some { s with terminated := true }

/-- Run a sequence of pool events. -/
def poolRun (s : PoolState) : List PoolEvent → Option PoolState
  | [] => some s
  | e :: es =>
    match poolStep s e with
    | some s' => poolRun s' es
    | none => none

/-- Invariant: the pool's identifiers are unchanged, the worker count
is `n` until shutdown, and every worker holds the pool's channel and
flag. -/
def PoolInv (n c f : Nat) (s : PoolState) : Prop :=
  s.chan = c ∧ s.flag = f ∧
  (s.terminated = false → s.workers.length = n) ∧
  (∀ w ∈ s.workers, w.chan = c ∧ w.flag = f)

theorem mkPool_inv (n c f : Nat) : PoolInv n c f (mkPool n c f) := by
  refine ⟨rfl, rfl, ?_, ?_⟩
  · intro _
    simp [mkPool]
  · intro w hw
    simp only [mkPool, List.mem_map, List.mem_range] at hw
    obtain ⟨i, _, hE⟩ := hw
    rw [← hE]
    exact ⟨rfl, rfl⟩

theorem poolStep_inv {n c f : Nat} {s s' : PoolState} {e : PoolEvent}
    (hinv : PoolInv n c f s) (h : poolStep s e = some s') :
    PoolInv n c f s' := by
  obtain ⟨hc, hf, hlen, hw⟩ := hinv
  cases e with
  | runJob i =>
    unfold poolStep at h
    dsimp only at h
    by_cases hi : i < s.workers.length
    · rw [if_pos hi] at h
      injection h with h
      subst h
      exact ⟨hc, hf, hlen, hw⟩
    · rw [if_neg hi] at h
      simp at h
  | panicJob i =>
    unfold poolStep at h
    dsimp only at h
    cases hg : s.workers.get? i with
    | none => rw [hg] at h; simp at h
    | some w =>
      rw [hg] at h
      injection h with h
      subst h
      refine ⟨hc, hf, ?_, ?_⟩
      · intro ht
        simp only [List.length_set]
        exact hlen ht
      · intro w' hw'
        rcases List.mem_or_eq_of_mem_set hw' with hmem | hE
        · exact hw w' hmem
        · have hface := hw w (List.get?_mem hg)
          rw [hE]
          exact hface
  | observeShutdown i =>
    unfold poolStep at h
    dsimp only at h
    by_cases hcond : s.terminated = true ∧ i < s.workers.length
    · rw [if_pos hcond] at h
      injection h with h
      subst h
      refine ⟨hc, hf, ?_, ?_⟩
      · intro ht
        rw [show (⟨s.workers.eraseIdx i, s.chan, s.flag, s.terminated,
          s.nextTid⟩ : PoolState).terminated = s.terminated from rfl,
          hcond.1] at ht
        cases ht
      · intro w' hw'
        exact hw w' (List.mem_of_mem_eraseIdx hw')
    · rw [if_neg hcond] at h
      simp at h
  | stop =>
    unfold poolStep at h
    dsimp only at h
    injection h with h
    subst h
    exact ⟨hc, hf, fun ht => by simp at ht, hw⟩

theorem poolRun_inv {n c f : Nat} {evs : List PoolEvent}
    {s s' : PoolState} (hinv : PoolInv n c f s)
    (h : poolRun s evs = some s') : PoolInv n c f s' := by
  induction evs generalizing s with
  | nil =>
    unfold poolRun at h
    injection h with h
    subst h
    exact hinv
  | cons e es ih =>
    unfold poolRun at h
    cases hs1 : poolStep s e with
    | none => rw [hs1] at h; simp at h
    | some s1 =>
      rw [hs1] at h
      exact ih (poolStep_inv hinv hs1) h

/-! ### Odds and ends used by the claim theorems -/

theorem specStep_set_self (k : String) (a : Option String) (v : String) :
    specStep k a (Op.set k v) = some v := by
  unfold specStep
  dsimp only
  rw [if_pos rfl]

theorem specStep_remove_self (k : String) (a : Option String) :
    specStep k a (Op.remove k) = none := by
  unfold specStep
  dsimp only
  rw [if_pos rfl]

theorem runOps_from_empty (ops : List Op) :
    WF (runOps (openFromDir []) ops) ∧
    ∀ k, get (runOps (openFromDir []) ops) k =
      .ok (specLastWrites ops k) := by
  exact runOps_spec ops (openFromDir []) (fun _ => none) (by decide)
    get_openEmpty

theorem mem_compactedEntries_gen (cgen : Nat) :
    ∀ (pos : Nat) (l : Idx), ∀ e ∈ compactedEntries cgen pos l,
      e.2.gen = cgen := by
  intro pos l
  induction l generalizing pos with
  | nil => simp [compactedEntries]
  | cons e0 rest ih =>
    obtain ⟨k0, cp0⟩ := e0
    intro e he
    rw [compactedEntries] at he
    rcases List.mem_cons.mp he with hE | hmem
    · rw [hE]
    · exact ih _ e hmem

theorem deleteStales_fails {failDel : Nat → Bool} {gs : List Nat}
    (segs : Segs) (h : ∃ g ∈ gs, failDel g = true) :
    ∃ e, deleteStales failDel segs gs = .error e := by
  induction gs generalizing segs with
  | nil =>
    obtain ⟨g, hg, _⟩ := h
    simp at hg
  | cons g0 gs ih =>
    by_cases hfd : failDel g0 = true
    · refine ⟨.ioErr, ?_⟩
      conv_lhs => rw [deleteStales]
      rw [if_pos hfd]
    · obtain ⟨g, hg, hgf⟩ := h
      rcases List.mem_cons.mp hg with hE | hg'
      · rw [← hE] at hfd
        exact absurd hgf hfd
      · obtain ⟨e, he⟩ := ih (segsDelete segs g0) ⟨g, hg', hgf⟩
        refine ⟨e, ?_⟩
        conv_lhs => rw [deleteStales]
        rw [if_neg hfd]
        exact he

/-! ## The claims -/

/-- C1: for every operation sequence on a freshly opened store, after a
successful `set(k, v)` every later `get(k)` returns `Some v` as long as
no later operation touches `k` (first conjunct; a subsequent
`set(k, w)` is this statement applied to the longer prefix ending in
that `set`, so `get` then returns the newer value), and once a
subsequent `remove(k)` runs, `get(k)` returns `None` through any
further operations not touching `k` (second conjunct).  `set` on a
fresh store always succeeds: its only failure modes are file-system
errors, which the model treats as succeeding. -/
theorem get_after_set_until_touched (ops1 ops2 ops3 : List Op)
    (k v : String)
    (h2 : ∀ op ∈ ops2, opKey op ≠ k)
    (h3 : ∀ op ∈ ops3, opKey op ≠ k) :
    get (runOps (openFromDir []) (ops1 ++ Op.set k v :: ops2)) k =
      .ok (some v) ∧
    get (runOps (openFromDir [])
        (ops1 ++ Op.set k v :: (ops2 ++ Op.remove k :: ops3))) k =
      .ok none := by
  constructor
  · rw [(runOps_from_empty (ops1 ++ Op.set k v :: ops2)).2 k]
    unfold specLastWrites
    rw [show ops1 ++ Op.set k v :: ops2 = ops1 ++ [Op.set k v] ++ ops2 by
        simp]
    simp only [specFrom_append, specFrom_cons, specFrom_nil]
    rw [specStep_set_self, specFrom_frame h2]
  · rw [(runOps_from_empty
      (ops1 ++ Op.set k v :: (ops2 ++ Op.remove k :: ops3))).2 k]
    unfold specLastWrites
    rw [show ops1 ++ Op.set k v :: (ops2 ++ Op.remove k :: ops3) =
        ops1 ++ [Op.set k v] ++ ops2 ++ [Op.remove k] ++ ops3 by simp]
    simp only [specFrom_append, specFrom_cons, specFrom_nil]
    rw [specStep_set_self, specFrom_frame h2, specStep_remove_self,
      specFrom_frame h3]

theorem get_after_set_until_touched_witness :
    get (runOps (openFromDir [])
      ([] ++ Op.set "a" "1" :: [Op.set "b" "2"])) "a" = .ok (some "1") ∧
    get (runOps (openFromDir [])
      ([] ++ Op.set "a" "1" :: ([Op.set "b" "2"] ++ Op.remove "a" :: [])))
      "a" = .ok none :=
  get_after_set_until_touched [] [Op.set "b" "2"] [] "a" "1"
    (by decide) (by decide)

/-- C2: after any operation sequence from a fresh store — including
sequences long enough to trigger compactions — reopening the store's
directory yields a store in which every key reads as the last value
set for it, or `None` if it was subsequently removed (or never set).
`specLastWrites` is the spec-side last-writer-wins fold. -/
theorem durability_reopen (ops : List Op) (k : String) :
    get (openFromDir (runOps (openFromDir []) ops).segs) k =
      .ok (specLastWrites ops k) := by
  obtain ⟨hwf, hget⟩ := runOps_from_empty ops
  rw [reopen_get hwf k]
  exact hget k

/-- C3: removing a present key succeeds, an immediately following
`get` returns `None`, and an immediately following second `remove`
fails with `KeyNotFound`; removing an absent key fails with
`KeyNotFound` and leaves the store completely unchanged (nothing is
appended, the index and `uncompacted` stay as they were). -/
theorem remove_semantics (s : KvState) (k : String) :
    (∀ cp, idxGet s.index k = some cp →
      ∃ s', doRemove s k = .ok s' ∧ get s' k = .ok none ∧
        doRemove s' k = .error .keyNotFound) ∧
    (idxGet s.index k = none →
      doRemove s k = .error .keyNotFound ∧ applyOp s (.remove k) = s) := by
  constructor
  · intro cp hcp
    refine ⟨removeCore s k cp, doRemove_some hcp, ?_, ?_⟩
    · exact get_eq_none_of_miss (idxGet_idxRemove_self ..)
    · exact doRemove_none (idxGet_idxRemove_self ..)
  · intro hnone
    refine ⟨doRemove_none hnone, ?_⟩
    unfold applyOp
    dsimp only
    rw [doRemove_none hnone]

theorem remove_semantics_witness :
    (∃ s', doRemove (applyOp (openFromDir []) (Op.set "a" "1")) "a" =
        .ok s' ∧ get s' "a" = .ok none ∧
        doRemove s' "a" = .error .keyNotFound) ∧
    (doRemove (openFromDir []) "b" = .error .keyNotFound ∧
      applyOp (openFromDir []) (.remove "b") = openFromDir []) :=
  ⟨(remove_semantics (applyOp (openFromDir []) (Op.set "a" "1")) "a").1
      ⟨1, 0, 31⟩ (by decide),
    (remove_semantics (openFromDir []) "b").2 (by decide)⟩

/-- C5 (amended): a successful `remove(k)` increases `uncompacted` by
exactly the removed index entry's length.  (The tombstone's own length
is not added on the live path — it is only charged when the log is
replayed by `load` on reopen; see the counterexample.) -/
theorem remove_uncompacted_delta (s s' : KvState) (k : String)
    (cp : CommandPos) (hidx : idxGet s.index k = some cp)
    (h : doRemove s k = .ok s') :
    s'.uncompacted = s.uncompacted + cp.len := by
  rw [doRemove_some hidx] at h
  injection h with h
  subst h
  rfl

theorem remove_uncompacted_delta_witness :
    (removeCore (applyOp (openFromDir []) (Op.set "a" "1")) "a"
      ⟨1, 0, 31⟩).uncompacted =
      (applyOp (openFromDir []) (Op.set "a" "1")).uncompacted + 31 :=
  remove_uncompacted_delta _ _ "a" ⟨1, 0, 31⟩ (by decide) (by decide)

/-- C5 counterexample: on a fresh store, `set "a" "1"` (record length
31) then `remove "a"` (tombstone length 18) leaves `uncompacted` at
31, not at 0 + 31 + 18 = 49 as the claim's "plus the byte length of
the tombstone record just appended" requires: `KvWriter::remove` adds
only the removed entry's length. -/
theorem remove_uncompacted_cex :
    Except.map KvState.uncompacted
      (doRemove (applyOp (openFromDir []) (Op.set "a" "1")) "a") =
      .ok 31 ∧
    (applyOp (openFromDir []) (Op.set "a" "1")).uncompacted = 0 ∧
    recLen (Command.rm "a") = 18 ∧
    (31 : Nat) ≠ 0 + 31 + 18 :=
  ⟨by decide, by decide, by decide, by decide⟩

/-- C4: a (successful) compaction of a well-formed state picks
`compaction_gen = current_gen + 1` and bumps `current_gen` by two,
iterates the live index entries in ascending key order (the index is
key-sorted), rewrites every entry to `(compaction_gen, new_offset,
length)` with the length unchanged and each offset the running sum of
the preceding lengths (`compactedEntries`), resets `uncompacted` to 0,
and leaves the directory holding exactly the compaction segment and a
fresh empty current segment, every rewritten entry pointing at a live
record; by construction (`doSet` appends to `currentGen`) all later
writes land in the new current segment. -/
theorem compaction_protocol (s s' : KvState) (hwf : WF s)
    (h : compact s = .ok s') :
    s'.currentGen = s.currentGen + 2 ∧
    s'.safePoint = s.currentGen + 1 ∧
    s'.index = compactedEntries (s.currentGen + 1) 0 s.index ∧
    s'.uncompacted = 0 ∧
    IdxSorted s.index ∧
    s'.segs.map Prod.fst = [s.currentGen + 1, s.currentGen + 2] ∧
    segLookup s'.segs s'.currentGen = some [] ∧
    (∀ e ∈ s'.index, entryOk s'.segs e.1 e.2 = true) := by
  obtain ⟨s'', sink, hok, hsegs, hcur, hsp, hidx, hunc, hwf', hget'⟩ :=
    compact_spec hwf
  rw [hok] at h
  injection h with h
  subst h
  refine ⟨hcur, hsp, hidx, hunc, hwf.2.2.2.1, ?_, ?_, hwf'.2.2.2.2.1⟩
  · rw [hsegs]
    rfl
  · rw [hsegs, hcur]
    simp [segLookup, show s.currentGen + 2 ≠ s.currentGen + 1 from by omega]

theorem compaction_protocol_witness :
    (⟨[(2, [Command.set "a" "1"]), (3, [])], 3, 2,
      [("a", ⟨2, 0, 31⟩)], 0⟩ : KvState).index =
      compactedEntries
        ((applyOp (openFromDir []) (Op.set "a" "1")).currentGen + 1) 0
        (applyOp (openFromDir []) (Op.set "a" "1")).index :=
  (compaction_protocol (applyOp (openFromDir []) (Op.set "a" "1"))
    ⟨[(2, [Command.set "a" "1"]), (3, [])], 3, 2, [("a", ⟨2, 0, 31⟩)], 0⟩
    (by decide) (by decide)).2.2.1

/-- C6 (amended): immediately after a compaction every live index
entry's generation lies in `[safe-point, safe-point + 1]` (in fact all
entries sit exactly at the safe point, the compaction generation), and
the new current segment's generation is `safe-point + 1` — not
`safe-point + 2` as the spec states, because `KvWriter::compact`
advances the safe point to `compaction_gen = current_gen + 1` while
the new current generation is `current_gen + 2`. -/
theorem compaction_safe_point (s s' : KvState) (hwf : WF s)
    (h : compact s = .ok s') :
    (∀ e ∈ s'.index, s'.safePoint ≤ e.2.gen ∧
      e.2.gen ≤ s'.safePoint + 1) ∧
    s'.currentGen = s'.safePoint + 1 := by
  obtain ⟨s'', sink, hok, hsegs, hcur, hsp, hidx, hunc, hwf', hget'⟩ :=
    compact_spec hwf
  rw [hok] at h
  injection h with h
  subst h
  constructor
  · intro e he
    rw [hidx] at he
    have := mem_compactedEntries_gen (s.currentGen + 1) 0 s.index e he
    rw [this, hsp]
    omega
  · rw [hcur, hsp]

theorem compaction_safe_point_witness :
    (⟨[(2, [Command.set "a" "1"]), (3, [])], 3, 2,
      [("a", ⟨2, 0, 31⟩)], 0⟩ : KvState).currentGen =
    (⟨[(2, [Command.set "a" "1"]), (3, [])], 3, 2,
      [("a", ⟨2, 0, 31⟩)], 0⟩ : KvState).safePoint + 1 :=
  (compaction_safe_point (applyOp (openFromDir []) (Op.set "a" "1"))
    ⟨[(2, [Command.set "a" "1"]), (3, [])], 3, 2, [("a", ⟨2, 0, 31⟩)], 0⟩
    (by decide) (by decide)).2

/-- C6 counterexample: compacting the store holding one key gives
`current_gen = 3` and `safe_point = 2`, and `3 ≠ 2 + 2`: the new
current segment is `safe-point + 1`, not `safe-point + 2` as
claimed. -/
theorem compaction_safe_point_cex :
    Except.map KvState.currentGen
      (compact (applyOp (openFromDir []) (Op.set "a" "1"))) = .ok 3 ∧
    Except.map KvState.safePoint
      (compact (applyOp (openFromDir []) (Op.set "a" "1"))) = .ok 2 ∧
    (3 : Nat) ≠ 2 + 2 :=
  ⟨by decide, by decide, by decide⟩

/-- C7 (amended): stale-segment deletion during compaction is not best
effort: `KvWriter::compact` propagates a failed `fs::remove_file` with
`?`, so if deleting any pre-existing (stale) segment fails, the whole
compaction returns an error instead of completing. -/
theorem compaction_delete_failure (s : KvState) (failDel : Nat → Bool)
    (hwf : WF s) (g0 : Nat) (hmem : g0 ∈ s.segs.map Prod.fst)
    (hfail : failDel g0 = true) :
    ∃ e, compactFs failDel s = .error e := by
  obtain ⟨h1, h2, h3, h4, h5, h6⟩ := hwf
  have hseg1 : newLogFile s.segs (s.currentGen + 2) =
      s.segs ++ [(s.currentGen + 2, [])] :=
    newLogFile_append_of_gt (fun e he => by have := h3 e he; omega)
  have hseg2 : newLogFile (s.segs ++ [(s.currentGen + 2, ([] : List Command))])
      (s.currentGen + 1) =
      s.segs ++ [(s.currentGen + 1, []), (s.currentGen + 2, [])] :=
    newLogFile_insert_mid ([] : List Command)
      (fun e he => by have := h3 e he; omega) (by omega)
  have hok2 : ∀ e ∈ s.index,
      entryOk (s.segs ++ [(s.currentGen + 1, []), (s.currentGen + 2, [])])
        e.1 e.2 = true :=
    fun e he => entryOk_append (h5 e he) _
  have hloop := compactLoop_eq_spec
    (s.segs ++ [(s.currentGen + 1, []), (s.currentGen + 2, [])])
    (s.currentGen + 1) s.index [] [] 0 hok2 (by simp) h4
  simp only [List.nil_append] at hloop
  have hnotmem1 : s.currentGen + 1 ∉ s.segs.map Prod.fst := by
    intro hm
    obtain ⟨e, he, hf⟩ := List.mem_map.mp hm
    have := h3 e he
    omega
  have hset : segsSet
      (s.segs ++ [(s.currentGen + 1, []), (s.currentGen + 2, [])])
      (s.currentGen + 1)
      (specCompactLoop
        (s.segs ++ [(s.currentGen + 1, []), (s.currentGen + 2, [])])
        (s.currentGen + 1) s.index 0).2 =
      s.segs ++ [(s.currentGen + 1,
        (specCompactLoop
          (s.segs ++ [(s.currentGen + 1, []), (s.currentGen + 2, [])])
          (s.currentGen + 1) s.index 0).2), (s.currentGen + 2, [])] := by
    rw [segsSet_append, segsSet_eq_of_not_mem _ hnotmem1,
      segsSet_pair _ _ _ _ _ (by omega)]
  have hmap3 : (s.segs ++ [(s.currentGen + 1,
      (specCompactLoop
        (s.segs ++ [(s.currentGen + 1, []), (s.currentGen + 2, [])])
        (s.currentGen + 1) s.index 0).2), (s.currentGen + 2, [])]).map
      Prod.fst =
      s.segs.map Prod.fst ++ [s.currentGen + 1, s.currentGen + 2] := by
    simp
  have hsorted3 : List.Pairwise (· ≤ ·)
      (s.segs.map Prod.fst ++ [s.currentGen + 1, s.currentGen + 2]) := by
    rw [List.pairwise_append]
    refine ⟨List.Pairwise.imp (fun h => Nat.le_of_lt h) h1, by simp, ?_⟩
    intro a ha b hb
    obtain ⟨e, he, hf⟩ := List.mem_map.mp ha
    have := h3 e he
    simp only [List.mem_cons, List.mem_singleton] at hb
    rcases hb with hb | hb | hb
    · omega
    · omega
    · simp at hb
  have hstales : (sortGens
      (s.segs.map Prod.fst ++ [s.currentGen + 1, s.currentGen + 2])).filter
      (fun gn => gn < s.currentGen + 1) = s.segs.map Prod.fst := by
    rw [sortGens_eq_self hsorted3, List.filter_append]
    have hl : (s.segs.map Prod.fst).filter
        (fun gn => gn < s.currentGen + 1) = s.segs.map Prod.fst := by
      rw [List.filter_eq_self]
      intro a ha
      obtain ⟨e, he, hf⟩ := List.mem_map.mp ha
      have := h3 e he
      simp only [decide_eq_true_eq]
      omega
    have hr : ([s.currentGen + 1, s.currentGen + 2]).filter
        (fun gn => gn < s.currentGen + 1) = [] := by
      simp
    rw [hl, hr, List.append_nil]
  obtain ⟨e, he⟩ := @deleteStales_fails failDel _
    (s.segs ++ [(s.currentGen + 1,
      (specCompactLoop
        (s.segs ++ [(s.currentGen + 1, []), (s.currentGen + 2, [])])
        (s.currentGen + 1) s.index 0).2), (s.currentGen + 2, [])])
    ⟨g0, hmem, hfail⟩
  refine ⟨e, ?_⟩
  unfold compactFs
  dsimp only
  rw [hseg1, hseg2, hloop]
  dsimp only
  rw [hset, hmap3, hstales, he]

theorem compaction_delete_failure_witness :
    ∃ e, compactFs (fun g => decide (g = 1))
      (applyOp (openFromDir []) (Op.set "a" "1")) = .error e :=
  compaction_delete_failure (applyOp (openFromDir []) (Op.set "a" "1"))
    (fun g => decide (g = 1)) (by decide) 1 (by decide) (by decide)

/-- C7 counterexample: compacting the one-key store while the deletion
of stale segment 1 fails makes the whole `compact` call return an
error — it does not complete successfully as the claim states. -/
theorem compaction_delete_failure_cex :
    compactFs (fun g => decide (g = 1))
      (applyOp (openFromDir []) (Op.set "a" "1")) = .error .ioErr := by
  decide

/-- C8: `KvStore::open` replays the directory in ascending generation
order (the replay order is the sorted permutation of the on-disk
generation list), then sets `current_gen` strictly above every
existing generation — to the maximum plus one when the directory is
nonempty (`current_gen - 1` is an existing generation), and to 1 when
it is empty — and initializes `safe_point` to the minimum existing
generation, or to `current_gen` when the directory is empty. -/
theorem open_generations (dir : Segs) :
    List.Pairwise (· ≤ ·) (sortGens (dir.map Prod.fst)) ∧
    (∀ g, g ∈ sortGens (dir.map Prod.fst) ↔ g ∈ dir.map Prod.fst) ∧
    (∀ g ∈ dir.map Prod.fst, g < (openFromDir dir).currentGen) ∧
    (dir = [] → (openFromDir dir).currentGen = 1 ∧
      (openFromDir dir).safePoint = (openFromDir dir).currentGen) ∧
    (dir ≠ [] → ((openFromDir dir).currentGen - 1) ∈ dir.map Prod.fst ∧
      (openFromDir dir).safePoint ∈ dir.map Prod.fst ∧
      (∀ g ∈ dir.map Prod.fst, (openFromDir dir).safePoint ≤ g)) := by
  refine ⟨sortGens_sorted _, fun g => mem_sortGens, ?_, ?_, ?_⟩
  · intro g hg
    have h1 : g ≤ (sortGens (dir.map Prod.fst)).getLast?.getD 0 :=
      le_getLastD_of_sorted (sortGens_sorted _) (mem_sortGens.mpr hg) 0
    show g < (sortGens (dir.map Prod.fst)).getLast?.getD 0 + 1
    omega
  · intro hE
    subst hE
    exact ⟨rfl, rfl⟩
  · intro hne
    have hmapne : dir.map Prod.fst ≠ [] := by
      intro hE
      exact hne (List.map_eq_nil_iff.mp hE)
    have hsne := sortGens_ne_nil hmapne
    refine ⟨?_, ?_, ?_⟩
    · show (sortGens (dir.map Prod.fst)).getLast?.getD 0 + 1 - 1 ∈ _
      rw [Nat.add_sub_cancel]
      exact mem_sortGens.mp (getLastD_mem_of_ne_nil hsne 0)
    · exact mem_sortGens.mp (headD_mem_of_ne_nil hsne _)
    · intro g hg
      exact headD_le_of_sorted (sortGens_sorted _) (mem_sortGens.mpr hg) _

theorem open_generations_witness :
    ((openFromDir [(5, [Command.set "a" "1"]), (3, [])]).currentGen - 1)
      ∈ ([(5, [Command.set "a" "1"]), (3, [])] : Segs).map Prod.fst :=
  ((open_generations [(5, [Command.set "a" "1"]), (3, [])]).2.2.2.2
    (by decide)).1

/-- C9: in a `SharedQueueThreadPool` of size `n`, a panicking job's
worker is replaced (its `RecoverableReceiver` guard, dropped during
the unwind, spawns a fresh thread on the same channel and shutdown
flag), while a worker exiting because it observed the shutdown flag is
not replaced; hence along any event sequence, while the pool has not
been stopped it holds exactly `n` live workers — in particular at
least `n` — all attached to the pool's channel and flag. -/
theorem pool_panic_survival (n c f : Nat) (evs : List PoolEvent)
    (s : PoolState) (h : poolRun (mkPool n c f) evs = some s)
    (hterm : s.terminated = false) :
    s.workers.length = n ∧ ∀ w ∈ s.workers, w.chan = c ∧ w.flag = f := by
  have hinv := poolRun_inv (mkPool_inv n c f) h
  exact ⟨hinv.2.2.1 hterm, hinv.2.2.2⟩

theorem pool_panic_survival_witness :
    (⟨[⟨2, 0, 0⟩, ⟨1, 0, 0⟩], 0, 0, false, 3⟩ : PoolState).workers.length
      = 2 ∧
    ∀ w ∈ (⟨[⟨2, 0, 0⟩, ⟨1, 0, 0⟩], 0, 0, false, 3⟩ : PoolState).workers,
      w.chan = 0 ∧ w.flag = 0 :=
  pool_panic_survival 2 0 0 [PoolEvent.panicJob 0, PoolEvent.runJob 1]
    ⟨[⟨2, 0, 0⟩, ⟨1, 0, 0⟩], 0, 0, false, 3⟩ (by decide) (by decide)

/-- C10: a successful `remove` never runs compaction: it leaves the
set of segment files, the contents of every non-current segment, the
current generation and the safe point unchanged — with no hypothesis
on `uncompacted`, so this holds in particular when the counter already
exceeds the 1,048,576-byte threshold (`KvWriter::remove` contains no
threshold check; only `set` does). -/
theorem remove_never_compacts (s s' : KvState) (k : String)
    (h : doRemove s k = .ok s') :
    s'.segs.map Prod.fst = s.segs.map Prod.fst ∧
    s'.currentGen = s.currentGen ∧
    s'.safePoint = s.safePoint ∧
    (∀ g, g ≠ s.currentGen → segLookup s'.segs g = segLookup s.segs g) := by
  unfold doRemove at h
  cases hidx : idxGet s.index k with
  | none =>
    rw [hidx] at h
    simp at h
  | some old =>
    rw [hidx] at h
    injection h with h
    subst h
    exact ⟨segsAppendRec_map_fst .., rfl, rfl,
      fun g hne => segLookup_segsAppendRec_ne _ _ hne⟩

/-- A store state whose `uncompacted` counter is far beyond the
compaction threshold, used to witness that `remove` still does not
compact. -/
def overThresholdState : KvState :=
  { applyOp (openFromDir []) (Op.set "a" "1") with uncompacted := 2000000 }

theorem remove_never_compacts_witness :
    (removeCore overThresholdState "a" ⟨1, 0, 31⟩).segs.map Prod.fst =
      overThresholdState.segs.map Prod.fst ∧
    (removeCore overThresholdState "a" ⟨1, 0, 31⟩).currentGen =
      overThresholdState.currentGen ∧
    (removeCore overThresholdState "a" ⟨1, 0, 31⟩).safePoint =
      overThresholdState.safePoint ∧
    (∀ g, g ≠ overThresholdState.currentGen →
      segLookup (removeCore overThresholdState "a" ⟨1, 0, 31⟩).segs g =
        segLookup overThresholdState.segs g) :=
  remove_never_compacts overThresholdState
    (removeCore overThresholdState "a" ⟨1, 0, 31⟩) "a" (by decide)

end KvsProof
